import Mathlib

/-!
Verification of the `sketch` code generator (Go) against its specification.

The development shallowly embeds the behaviour of the code that the
repository's templates generate, together with the schema model and the
pipeline fragments that the claims refer to.

Modelling conventions:

* The generated object template (`object.go`, src/unnamed/part_010) is
  embedded generically over a field universe `FieldKind` covering the
  storage shapes the template distinguishes: pointer-indirected scalars
  (string, int, bool, where the raw type differs from the indirect type)
  and directly stored collections (a string slice and a string-to-int
  map, where the raw type equals the indirect type and `makePairs` tests
  `len(val) > 0` instead of `val != nil`).
* JSON numbers are modelled as integers; `encoding/json` decodes numbers
  into `float64`, which represents integers of magnitude below `2^53`
  exactly, so integer-valued documents round-trip through `float64`.
* The wire is modelled at the token level of `encoding/json`: `Token()`
  yields delimiters and primitive values and skips the interstitial
  colons, commas and whitespace, and `Decode` consumes one value.  The
  byte level is modelled separately for the two claims that are about
  exact bytes, mirroring `json.Encoder.Encode` (compact encoding with
  HTML escaping, followed by a newline after every encoded value).
* Go map iteration order is not deterministic; an object's extra storage
  therefore carries an explicit enumeration (an association list), and
  determinism statements quantify over permutations of that enumeration.
* The string encoder is applied only to values whose nested object
  members are already sorted by key (Go's encoder sorts map keys when
  encoding); theorems that feed maps to the encoder carry a
  corresponding canonicity hypothesis.
-/

namespace Sketch

/-- Decoded open JSON values, as `encoding/json` stores them in an open
`interface` slot (`null`, booleans, numbers, strings, arrays, and
objects; object members carry an explicit enumeration order). -/
inductive Jval where
  | null : Jval
  | jbool (b : Bool) : Jval
  | jnum (n : Int) : Jval
  | jstr (s : String) : Jval
  | jarr (elems : List Jval) : Jval
  | jobj (members : List (String × Jval)) : Jval

/-- Tokens of the JSON wire, as returned by `json.Decoder.Token`. -/
inductive Tok where
  | lbrace : Tok
  | rbrace : Tok
  | lbrack : Tok
  | rbrack : Tok
  | tstr (s : String) : Tok
  | tnum (n : Int) : Tok
  | tbool (b : Bool) : Tok
  | tnull : Tok
deriving DecidableEq

/-- Storage shapes of declared fields covered by the embedding. -/
inductive FieldKind where
  | kstr : FieldKind
  | knum : FieldKind
  | kbool : FieldKind
  | kstrList : FieldKind
  | knumMap : FieldKind
deriving DecidableEq

/-- A stored declared-field value (the dereferenced storage). -/
inductive FieldVal where
  | vstr (s : String) : FieldVal
  | vnum (n : Int) : FieldVal
  | vbool (b : Bool) : FieldVal
  | vstrList (l : List String) : FieldVal
  | vnumMap (l : List (String × Int)) : FieldVal
deriving DecidableEq

def FieldVal.kind : FieldVal → FieldKind
  | .vstr _ => .kstr
  | .vnum _ => .knum
  | .vbool _ => .kbool
  | .vstrList _ => .kstrList
  | .vnumMap _ => .knumMap

/-- True for the storage shapes where the raw type equals the indirect
type and the template's `makePairs` guards with `len(val) > 0`. -/
def FieldKind.isSliceOrMap : FieldKind → Bool
  | .kstrList => true
  | .knumMap => true
  | _ => false

/-- `len(val) = 0` for collection values. -/
def FieldVal.isEmptyColl : FieldVal → Bool
  | .vstrList l => l.isEmpty
  | .vnumMap l => l.isEmpty
  | _ => false

/-- The open-JSON view of a stored value, i.e. what the generated code
hands to the encoder (after pointer dereference) and what `Get` assigns
into the destination. -/
def FieldVal.toJval : FieldVal → Jval
  | .vstr s => .jstr s
  | .vnum n => .jnum n
  | .vbool b => .jbool b
  | .vstrList l => .jarr (l.map Jval.jstr)
  | .vnumMap l => .jobj (l.map fun p => (p.1, Jval.jnum p.2))

/-- A declared field of a schema, with the attributes the object and
builder templates read: exported name (`GetName`), wire key (`GetJSON`),
storage shape, `Required`, and the `Extension` flag. -/
structure FieldDecl where
  name : String
  json : String
  kind : FieldKind
  required : Bool
  extension : Bool
deriving DecidableEq

/-- The state of a generated object: per declared field its storage
(`none` models nil storage, i.e. an absent field), plus the extra
storage map (`none` models a nil, never-allocated map; `some` carries
the map contents in their current enumeration order). -/
structure Obj where
  fields : List (FieldDecl × Option FieldVal)
  extra : Option (List (String × Jval))

/-- Errors returned by the generated code (modelled abstractly). -/
inductive Err where
  | noSuchKey (key : String)
  | readToken
  | expectedObjectStart
  | decodeField (key : String)
  | decodeExtra (key : String)
  | requiredField (name : String)
  | setterErr (msg : String)
  | badValue
  | fuelOut
deriving DecidableEq

/-- Association-list lookup, modelling a Go map read. -/
def lookupStr (m : List (String × Jval)) (k : String) : Option Jval :=
  match m.find? (fun p => p.1 == k) with
  | some p => some p.2
  | none => none

/-- Association-list update, modelling a Go map assignment: an existing
key is overwritten in place, a new key is appended. -/
def mapUpd (m : List (String × Jval)) (k : String) (v : Jval) :
    List (String × Jval) :=
  if m.any (fun p => p.1 == k) then
    m.map fun p => if p.1 == k then (k, v) else p
  else m ++ [(k, v)]

/-- The generated `switch key` over the per-field key constants: the
constants hold the wire keys, so this resolves a key to the (unique)
declared field with that wire key. -/
def findDecl (fields : List (FieldDecl × Option FieldVal)) (key : String) :
    Option (FieldDecl × Option FieldVal) :=
  fields.find? fun fo => fo.1.json == key

/-- Generated `Get` (object.go template): a declared wire key answers
from the field storage and errors when that storage is nil (the extra
map is not consulted in that case); otherwise the extra map is
consulted; absence everywhere is the "no such key" error. -/
def Obj.get (v : Obj) (key : String) : Except Err Jval :=
  match findDecl v.fields key with
  | some fo =>
    match fo.2 with
    | some val => .ok val.toJval
    | none => .error (.noSuchKey key)
  | none =>
    match v.extra with
    | some m =>
      match lookupStr m key with
      | some val => .ok val
      | none => .error (.noSuchKey key)
    | none => .error (.noSuchKey key)

/-! ### Lexicographic string order

Go compares strings byte-lexicographically; on UTF-8 data this agrees
with the code-point lexicographic order, which is spelled out here as a
computable comparison so that concrete instances evaluate inside
proofs. -/

/-- Strict lexicographic comparison of character lists. -/
def strLtB : List Char → List Char → Bool
  | [], [] => false
  | [], _ :: _ => true
  | _ :: _, [] => false
  | a :: as, b :: bs =>
    if a.toNat < b.toNat then true
    else if b.toNat < a.toNat then false
    else strLtB as bs

theorem strLtB_irrefl : ∀ l, strLtB l l = false
  | [] => rfl
  | _ :: as => by simp [strLtB, strLtB_irrefl as]

theorem strLtB_asymm : ∀ l1 l2, strLtB l1 l2 = true → strLtB l2 l1 = false
  | [], [], h => by simp [strLtB] at h
  | [], _ :: _, _ => rfl
  | _ :: _, [], h => by simp [strLtB] at h
  | a :: as, b :: bs, h => by
    simp only [strLtB] at h ⊢
    rcases Nat.lt_trichotomy a.toNat b.toNat with hlt | heq | hgt
    · simp [hlt, Nat.lt_asymm hlt]
    · simp only [heq, Nat.lt_irrefl, if_false] at h ⊢
      exact strLtB_asymm as bs h
    · simp [hgt, Nat.lt_asymm hgt] at h

theorem strLtB_trans : ∀ l1 l2 l3, strLtB l1 l2 = true →
    strLtB l2 l3 = true → strLtB l1 l3 = true
  | [], [], _, h1, _ => by simp [strLtB] at h1
  | [], _ :: _, [], _, h2 => by simp [strLtB] at h2
  | [], _ :: _, _ :: _, _, _ => rfl
  | _ :: _, [], _, h1, _ => by simp [strLtB] at h1
  | _ :: _, _ :: _, [], _, h2 => by simp [strLtB] at h2
  | a :: as, b :: bs, c :: cs, h1, h2 => by
    simp only [strLtB] at h1 h2 ⊢
    rcases Nat.lt_trichotomy a.toNat b.toNat with hab | hab | hab
    · rcases Nat.lt_trichotomy b.toNat c.toNat with hbc | hbc | hbc
      · simp [Nat.lt_trans hab hbc]
      · simp [hbc ▸ hab]
      · simp [hbc, Nat.lt_asymm hbc] at h2
    · rcases Nat.lt_trichotomy b.toNat c.toNat with hbc | hbc | hbc
      · simp [hab ▸ hbc]
      · have hac : a.toNat = c.toNat := hab.trans hbc
        simp only [hab, Nat.lt_irrefl, if_false] at h1
        simp only [hbc, Nat.lt_irrefl, if_false] at h2
        simp only [hac, Nat.lt_irrefl, if_false]
        exact strLtB_trans as bs cs h1 h2
      · simp [hbc, Nat.lt_asymm hbc] at h2
    · simp [hab, Nat.lt_asymm hab] at h1

theorem strLtB_eq_of_not_lt : ∀ l1 l2, strLtB l1 l2 = false →
    strLtB l2 l1 = false → l1 = l2
  | [], [], _, _ => rfl
  | [], _ :: _, h1, _ => by simp [strLtB] at h1
  | _ :: _, [], _, h2 => by simp [strLtB] at h2
  | a :: as, b :: bs, h1, h2 => by
    simp only [strLtB] at h1 h2
    rcases Nat.lt_trichotomy a.toNat b.toNat with hab | hab | hab
    · simp [hab] at h1
    · simp only [hab, Nat.lt_irrefl, if_false] at h1 h2
      have heq : a = b := by
        have h3 : Char.ofNat a.toNat = Char.ofNat b.toNat := by rw [hab]
        rwa [Char.ofNat_toNat, Char.ofNat_toNat] at h3
      rw [heq, strLtB_eq_of_not_lt as bs h1 h2]
    · simp [hab] at h2

/-- The non-strict lexicographic order on strings (`s ≤ t` iff not
`t < s`). -/
def strLe (s t : String) : Prop := strLtB t.data s.data = false

instance : DecidableRel strLe := fun s t =>
  inferInstanceAs (Decidable (strLtB t.data s.data = false))

theorem strLe_total (s t : String) : strLe s t ∨ strLe t s := by
  unfold strLe
  cases h : strLtB t.data s.data with
  | false => exact Or.inl rfl
  | true => exact Or.inr (strLtB_asymm _ _ h)

theorem strLe_trans {s t u : String} (h1 : strLe s t) (h2 : strLe t u) :
    strLe s u := by
  unfold strLe at h1 h2 ⊢
  by_contra hne
  have h : strLtB u.data s.data = true := by
    cases hx : strLtB u.data s.data
    · exact absurd hx hne
    · rfl
  cases hst : strLtB s.data t.data with
  | true =>
    have := strLtB_trans u.data s.data t.data h hst
    rw [h2] at this
    exact Bool.noConfusion this
  | false =>
    have heq := strLtB_eq_of_not_lt s.data t.data hst h1
    rw [← heq] at h2
    rw [h2] at h
    exact Bool.noConfusion h

theorem strLe_antisymm {s t : String} (h1 : strLe s t) (h2 : strLe t s) :
    s = t := by
  unfold strLe at h1 h2
  have := strLtB_eq_of_not_lt _ _ h2 h1
  cases s
  cases t
  exact congrArg String.mk this

/-- The comparison `sort.Slice` is given in `makePairs`: by pair name. -/
def pairLe (p q : String × Jval) : Prop := strLe p.1 q.1

instance : DecidableRel pairLe := fun p q =>
  inferInstanceAs (Decidable (strLe p.1 q.1))

instance : IsTotal (String × Jval) pairLe := ⟨fun p q => strLe_total p.1 q.1⟩

instance : IsTrans (String × Jval) pairLe :=
  ⟨fun _ _ _ h h2 => strLe_trans h h2⟩

/-- The sort performed by `makePairs`.  `sort.Slice` with the strict
name comparison; any order consistent with it is possible for ties, the
model fixes insertion sort (all orders agree on pairwise distinct
names, and the theorems about states with colliding names do not depend
on the tie order). -/
def sortPairs (l : List (String × Jval)) : List (String × Jval) :=
  List.insertionSort pairLe l

/-- The declared-field part of `makePairs`: a pair per field whose
storage is non-nil, except that slice- and map-shaped storage is
included only when `len(val) > 0`; the pair name is the field's key
constant (wire key) and the value the dereferenced storage. -/
def declaredPairs (fields : List (FieldDecl × Option FieldVal)) :
    List (String × Jval) :=
  fields.filterMap fun fo =>
    match fo.2 with
    | none => none
    | some val =>
      if fo.1.kind.isSliceOrMap && val.isEmptyColl then none
      else some (fo.1.json, val.toJval)

/-- Ranging over the extra map (no iterations when the map is nil). -/
def extraEnum : Option (List (String × Jval)) → List (String × Jval)
  | none => []
  | some m => m

/-- Generated `makePairs`: declared pairs plus extra pairs, sorted by
name. -/
def Obj.makePairs (v : Obj) : List (String × Jval) :=
  sortPairs (declaredPairs v.fields ++ extraEnum v.extra)

/-! ### Byte-level encoding, mirroring `json.Encoder` -/

/-- Lower-case hexadecimal digit. -/
def hexDigit (n : Nat) : Char :=
  if n < 10 then Char.ofNat (48 + n) else Char.ofNat (87 + n)

/-- Four-digit lower-case hexadecimal rendering (for escape sequences). -/
def toHex4 (n : Nat) : String :=
  String.mk [hexDigit (n / 4096 % 16), hexDigit (n / 256 % 16),
    hexDigit (n / 16 % 16), hexDigit (n % 16)]

/-- Per-character JSON string escaping as performed by `json.Encoder`
with its default HTML escaping. -/
def escapeChar (c : Char) : String :=
  if c = '"' then "\\\""
  else if c = '\\' then "\\\\"
  else if c = '\n' then "\\n"
  else if c = '\r' then "\\r"
  else if c = '\t' then "\\t"
  else if c = '<' ∨ c = '>' ∨ c = '&' ∨ c.toNat < 32 ∨
      c.toNat = 8232 ∨ c.toNat = 8233 then
    "\\u" ++ toHex4 c.toNat
  else String.mk [c]

/-- JSON string literal encoding. -/
def encStrLit (s : String) : String :=
  "\"" ++ String.join (s.data.map escapeChar) ++ "\""

mutual

/-- Compact JSON byte encoding of an open value, as produced by the Go
encoder for a value whose nested object members are already sorted by
key (the Go encoder sorts map keys itself; the canonicity hypotheses of
the theorems discharge the difference). -/
def Jval.enc : Jval → String
  | .null => "null"
  | .jbool true => "true"
  | .jbool false => "false"
  | .jnum n => toString n
  | .jstr s => encStrLit s
  | .jarr elems => "[" ++ Jval.encArr elems ++ "]"
  | .jobj members => "\x7b" ++ Jval.encObj members ++ "\x7d"

/-- Comma-joined array elements. -/
def Jval.encArr : List Jval → String
  | [] => ""
  | [e] => e.enc
  | e :: rest => e.enc ++ "," ++ Jval.encArr rest

/-- Comma-joined object members. -/
def Jval.encObj : List (String × Jval) → String
  | [] => ""
  | [m] => encStrLit m.1 ++ ":" ++ m.2.enc
  | m :: rest => encStrLit m.1 ++ ":" ++ m.2.enc ++ "," ++ Jval.encObj rest

end

/-- `json.Encoder.Encode` writes the compact encoding of the value
followed by a newline. -/
def encodeCall (v : Jval) : String := v.enc ++ "\n"

/-- The pair-serialization loop of the generated `MarshalJSON`: a comma
before every pair but the first, then `Encode` of the name, a colon,
and `Encode` of the value. -/
def marshalPairsBytes : List (String × Jval) → String
  | [] => ""
  | [p] => encodeCall (.jstr p.1) ++ ":" ++ encodeCall p.2
  | p :: rest =>
    encodeCall (.jstr p.1) ++ ":" ++ encodeCall p.2 ++ "," ++
      marshalPairsBytes rest

/-- Generated `MarshalJSON` (object.go template): braces around the
serialized, sorted pair list. -/
def Obj.marshalBytes (v : Obj) : String :=
  "\x7b" ++ marshalPairsBytes v.makePairs ++ "\x7d"

/-! ### Token-level encoding

`marshalToks` is the token stream a `json.Decoder` reading the bytes of
`marshalBytes` would deliver: the interstitial newlines, colons and
commas produce no tokens. -/

mutual

/-- Token stream of one encoded value (nested object members are
emitted in their stored order; the canonicity hypotheses of the
round-trip theorems restrict attention to key-sorted members, matching
the byte encoder). -/
def Jval.encToks : Jval → List Tok
  | .null => [.tnull]
  | .jbool b => [.tbool b]
  | .jnum n => [.tnum n]
  | .jstr s => [.tstr s]
  | .jarr elems => Tok.lbrack :: Jval.encToksArr elems ++ [Tok.rbrack]
  | .jobj members => Tok.lbrace :: Jval.encToksObj members ++ [Tok.rbrace]

/-- Token runs of array elements. -/
def Jval.encToksArr : List Jval → List Tok
  | [] => []
  | e :: rest => e.encToks ++ Jval.encToksArr rest

/-- Token runs of object members (key string token, then the value). -/
def Jval.encToksObj : List (String × Jval) → List Tok
  | [] => []
  | m :: rest => Tok.tstr m.1 :: m.2.encToks ++ Jval.encToksObj rest

end

/-- Token stream of the serialized pair list. -/
def pairsToks (ps : List (String × Jval)) : List Tok :=
  ps.flatMap fun p => Tok.tstr p.1 :: p.2.encToks

/-- Token-level view of the `MarshalJSON` output. -/
def Obj.marshalToks (v : Obj) : List Tok :=
  Tok.lbrace :: pairsToks v.makePairs ++ [Tok.rbrace]

/-! ### Token-level decoding, mirroring `json.Decoder.Decode`

The decoder of open values is written with explicit fuel; the wrapper
passes ample fuel, and the correctness lemmas show the fuel never runs
out on encoder output. -/

mutual

/-- Decode one open JSON value from the token stream (the effect of
`dec.Decode(&val)` for an `interface` destination). -/
def decV : Nat → List Tok → Except Err (Jval × List Tok)
  | 0, _ => .error .fuelOut
  | _ + 1, [] => .error .readToken
  | f + 1, t :: rest =>
    match t with
    | .tnull => .ok (.null, rest)
    | .tbool b => .ok (.jbool b, rest)
    | .tnum n => .ok (.jnum n, rest)
    | .tstr s => .ok (.jstr s, rest)
    | .lbrack => decArr f rest []
    | .lbrace => decObj f rest []
    | _ => .error .badValue

/-- Decode array elements up to the closing bracket. -/
def decArr : Nat → List Tok → List Jval → Except Err (Jval × List Tok)
  | 0, _, _ => .error .fuelOut
  | _ + 1, [], _ => .error .readToken
  | f + 1, t :: rest, acc =>
    match t with
    | .rbrack => .ok (.jarr acc, rest)
    | t2 =>
      match decV f (t2 :: rest) with
      | .error e => .error e
      | .ok (v, r2) => decArr f r2 (acc ++ [v])

/-- Decode object members up to the closing brace; a duplicate key
overwrites, as in a Go map. -/
def decObj : Nat → List Tok → List (String × Jval) →
    Except Err (Jval × List Tok)
  | 0, _, _ => .error .fuelOut
  | _ + 1, [], _ => .error .readToken
  | f + 1, t :: rest, acc =>
    match t with
    | .rbrace => .ok (.jobj acc, rest)
    | .tstr k =>
      match decV f rest with
      | .error e => .error e
      | .ok (v, r2) => decObj f r2 (mapUpd acc k v)
    | _ => .error .badValue

end

/-- `Decode` into an open slot, with ample fuel. -/
def decodeValue (toks : List Tok) : Except Err (Jval × List Tok) :=
  decV (2 * toks.length + 2) toks

/-- Elements of a `[]string` destination: strings, or `null` (which
leaves the zero value, the empty string). -/
def decStrsIn : List Tok → Except Err (List String × List Tok)
  | [] => .error .readToken
  | Tok.rbrack :: r => .ok ([], r)
  | Tok.tstr s :: r =>
    match decStrsIn r with
    | .error e => .error e
    | .ok (l, r2) => .ok (s :: l, r2)
  | Tok.tnull :: r =>
    match decStrsIn r with
    | .error e => .error e
    | .ok (l, r2) => .ok ("" :: l, r2)
  | _ => .error .badValue

/-- Association-list update for decoded `map[string]int` contents. -/
def numMapUpd (m : List (String × Int)) (k : String) (n : Int) :
    List (String × Int) :=
  if m.any (fun p => p.1 == k) then
    m.map fun p => if p.1 == k then (k, n) else p
  else m ++ [(k, n)]

/-- Members of a `map[string]int` destination: keys with numeric (or
`null`, decoding to the zero value) values; duplicates overwrite. -/
def decNumMapIn (toks : List Tok) (acc : List (String × Int)) :
    Except Err (List (String × Int) × List Tok) :=
  match toks with
  | [] => .error .readToken
  | Tok.rbrace :: r => .ok (acc, r)
  | Tok.tstr k :: Tok.tnum n :: r => decNumMapIn r (numMapUpd acc k n)
  | Tok.tstr k :: Tok.tnull :: r => decNumMapIn r (numMapUpd acc k 0)
  | _ => .error .badValue

/-- The effect of `var val <rawType>; dec.Decode(&val)` followed by the
generated storage assignment.  The result `none` models the cases where
the assigned raw value is nil (a JSON `null` decoded into slice- or
map-shaped storage), leaving the field absent; for pointer-indirected
kinds the address of `val` is stored, so even a `null` (which leaves
`val` at its zero value) makes the field present. -/
def decodeField (k : FieldKind) (toks : List Tok) :
    Except Err (Option FieldVal × List Tok) :=
  match k, toks with
  | _, [] => .error .readToken
  | .kstr, Tok.tstr s :: r => .ok (some (.vstr s), r)
  | .kstr, Tok.tnull :: r => .ok (some (.vstr ""), r)
  | .knum, Tok.tnum n :: r => .ok (some (.vnum n), r)
  | .knum, Tok.tnull :: r => .ok (some (.vnum 0), r)
  | .kbool, Tok.tbool b :: r => .ok (some (.vbool b), r)
  | .kbool, Tok.tnull :: r => .ok (some (.vbool false), r)
  | .kstrList, Tok.lbrack :: r =>
    match decStrsIn r with
    | .error e => .error e
    | .ok (l, r2) => .ok (some (.vstrList l), r2)
  | .kstrList, Tok.tnull :: r => .ok (none, r)
  | .knumMap, Tok.lbrace :: r =>
    match decNumMapIn r [] with
    | .error e => .error e
    | .ok (m, r2) => .ok (some (.vnumMap m), r2)
  | .knumMap, Tok.tnull :: r => .ok (none, r)
  | _, _ :: _ => .error .badValue

/-! ### The generated `UnmarshalJSON` -/

/-- Outcome of a call to the generated `UnmarshalJSON`: normal return,
error return, or a runtime panic; every outcome carries the object
state at that point (mutation happens in place). -/
inductive URes where
  | ok (o : Obj) : URes
  | fail (e : Err) (o : Obj) : URes
  | panicked (o : Obj) : URes

/-- The object state carried by an outcome. -/
def URes.state : URes → Obj
  | .ok o => o
  | .fail _ o => o
  | .panicked o => o

/-- The reset prologue of `UnmarshalJSON`: every declared field's
storage is assigned nil. -/
def resetFields (fields : List (FieldDecl × Option FieldVal)) :
    List (FieldDecl × Option FieldVal) :=
  fields.map fun fo => (fo.1, (none : Option FieldVal))

/-- Storage assignment through the key switch (the wire keys are unique
within one generated object: duplicate `case` constants do not compile
in Go, so assigning every field carrying the key is equivalent to
assigning the unique one). -/
def setField (fields : List (FieldDecl × Option FieldVal)) (key : String)
    (sv : Option FieldVal) : List (FieldDecl × Option FieldVal) :=
  fields.map fun fo => if fo.1.json == key then (fo.1, sv) else fo

/-- The token loop of the generated `UnmarshalJSON`: `Token()` per
iteration; `'\x7d'` ends the object, `'\x7b'` continues, other
delimiters error; a string token is a key: a declared wire key decodes
into the field's raw storage type (failure reported against the key),
any other key decodes into an open value and is assigned into the
extra map — a nil extra map makes that assignment panic.  Non-delimiter,
non-string tokens match no switch case and are skipped. -/
def unmarshalLoop : Nat → Obj → List Tok → URes
  | 0, v, _ => .fail .fuelOut v
  | _ + 1, v, [] => .fail .readToken v
  | f + 1, v, t :: rest =>
    match t with
    | .rbrace => .ok v
    | .lbrace => unmarshalLoop f v rest
    | .lbrack => .fail .expectedObjectStart v
    | .rbrack => .fail .expectedObjectStart v
    | .tnum _ => unmarshalLoop f v rest
    | .tbool _ => unmarshalLoop f v rest
    | .tnull => unmarshalLoop f v rest
    | .tstr s =>
      match findDecl v.fields s with
      | some fo =>
        match decodeField fo.1.kind rest with
        | .error _ => .fail (.decodeField s) v
        | .ok (sv, r2) =>
          unmarshalLoop f { v with fields := setField v.fields s sv } r2
      | none =>
        match decodeValue rest with
        | .error _ => .fail (.decodeExtra s) v
        | .ok (jv, r2) =>
          match v.extra with
          | none => .panicked v
          | some m =>
            unmarshalLoop f { v with extra := some (mapUpd m s jv) } r2

/-- Generated `UnmarshalJSON`: reset all declared-field storage, then
stream the tokens.  The extra map is left untouched by the prologue. -/
def Obj.unmarshal (v : Obj) (toks : List Tok) : URes :=
  unmarshalLoop (toks.length + 1) { v with fields := resetFields v.fields } toks

/-! ### The generated builder (object/builder template) -/

/-- Builder state: the lazy-initialization flag (`sync.Once`), the
recorded error from a failed setter, and the object under
construction. -/
structure BuilderState where
  initialized : Bool
  err : Option Err
  object : Obj

/-- A zero-value generated object: every declared field nil, and a nil
(unallocated) extra map. -/
def freshObj (decls : List FieldDecl) : Obj :=
  { fields := decls.map fun d => (d, none), extra := none }

/-- `b.once.Do(b.initialize)`: on first use the error is cleared and a
fresh object is installed. -/
def BuilderState.lazyInit (b : BuilderState) (decls : List FieldDecl) :
    BuilderState :=
  if b.initialized then b
  else { initialized := true, err := none, object := freshObj decls }

/-- The required-field scan of the generated `Build`: the first declared
field with `GetRequired` whose storage is nil. -/
def firstMissingRequired (fields : List (FieldDecl × Option FieldVal)) :
    Option FieldDecl :=
  (fields.find? fun fo => fo.1.required && fo.2.isNone).map Prod.fst

/-- Generated `Build` (object/builder template): lazily initialize,
return the recorded error if any, then fail on the first required field
with nil storage, otherwise return the object and reset the builder
(fresh `sync.Once` immediately consumed by `initialize`). -/
def buildCall (decls : List FieldDecl) (b : BuilderState) :
    Except Err Obj × BuilderState :=
  match (b.lazyInit decls).err with
  | some e => (.error e, b.lazyInit decls)
  | none =>
    match firstMissingRequired (b.lazyInit decls).object.fields with
    | some d => (.error (.requiredField d.name), b.lazyInit decls)
    | none =>
      (.ok (b.lazyInit decls).object,
        { initialized := true, err := none, object := freshObj decls })

/-- Per-field typed setter generation in the builder template: a setter
is emitted only for non-extension fields whose builder symbol the
generation policy allows. -/
def builderSetterGenerated (f : FieldDecl) (genSymbol : String → Bool) :
    Bool :=
  !f.extension && genSymbol ("builder.method." ++ f.name)

/-! ### Schema base object and key naming (schema.go) -/

/-- A value in the run-scoped `Variables` bag. -/
inductive VarVal where
  | vs (s : String) : VarVal
  | vb (b : Bool) : VarVal
  | vother : VarVal
deriving DecidableEq

/-- `schema.Base`: the embedded base carrying the `Variables` bag. -/
structure SBase where
  varBag : List (String × VarVal)
deriving DecidableEq

/-- `Base.StringVar`: the named variable when it exists and holds a
string, the empty string otherwise. -/
def SBase.stringVar (b : SBase) (name : String) : String :=
  match b.varBag.find? (fun p => p.1 == name) with
  | some (_, .vs s) => s
  | _ => ""

/-- `Base.KeyNamePrefix`: the `DefaultKeyNamePrefix` variable. -/
def SBase.keyNamePrefix (b : SBase) : String :=
  b.stringVar "DefaultKeyNamePrefix"

/-- `Base.GetKeyName`: prefix, then field name, then the fixed `Key`
suffix. -/
def SBase.getKeyName (b : SBase) (fieldName : String) : String :=
  b.keyNamePrefix ++ fieldName ++ "Key"

/-- `FieldSpec.GetKeyName`: delegates to the object's `GetKeyName`
with the field's name. -/
def fieldSpecGetKeyName (fieldName : String) (b : SBase) : String :=
  b.getKeyName fieldName

/-- The variable bag the synthesized compiler/main.go installs for one
schema object: package, generation policy, derived names, and — only
with the key-prefix switch — `DefaultKeyNamePrefix` set to the object
name. -/
def compilerMainBase (withKeyNamePrefix : Bool) (objName pkg : String) :
    SBase :=
  { varBag :=
      [("DefaultPkg", .vs pkg), ("DefaultGenerateSymbol", .vother),
       ("DefaultName", .vs objName),
       ("DefaultBuilderName", .vs (objName ++ "Builder")),
       ("DefaultBuilderResultType", .vs ("*" ++ objName))] ++
      (if withKeyNamePrefix then [("DefaultKeyNamePrefix", .vs objName)]
       else []) }

/-! ### Field-list handling in the synthesized intermediate programs -/

/-- Field comparison used by the old main.go template's `sort.Slice`
call: ascending field name (the model fixes insertion sort; all sorts
agree on pairwise distinct names). -/
def fieldNameLe (a b : FieldDecl) : Prop := strLe a.name b.name

instance : DecidableRel fieldNameLe := fun a b =>
  inferInstanceAs (Decidable (strLe a.name b.name))

instance : IsTotal FieldDecl fieldNameLe :=
  ⟨fun a b => strLe_total a.name b.name⟩

instance : IsTrans FieldDecl fieldNameLe :=
  ⟨fun _ _ _ h h2 => strLe_trans h h2⟩

/-- Old main.go template: `fields := src.Schema.Fields()` followed by
`sort.Slice` on `GetName` before executing the object template. -/
def mainGoTemplateFields (fields : List FieldDecl) : List FieldDecl :=
  List.insertionSort fieldNameLe fields

/-- Current compiler/main.go template (`_main`): the schema value is
handed to the per-object file templates as-is; no sorting of the field
list occurs anywhere in `_main`. -/
def compilerMainTemplateFields (fields : List FieldDecl) : List FieldDecl :=
  fields

/-! ### Type capability detection (schema.Type / TypeSpec) -/

/-- An abstracted `reflect.Type`: enough structure for `typeName`, the
kind switches of `schema.Type`, and identity tests against
`interface` and `error`. -/
inductive GoTy where
  | str : GoTy
  | iface : GoTy
  | errIface : GoTy
  | ptr (t : GoTy) : GoTy
  | slice (t : GoTy) : GoTy
  | array (n : Nat) (t : GoTy) : GoTy
  | mapTy (k v : GoTy) : GoTy
  | chan (t : GoTy) : GoTy
  | base (s : String) : GoTy
deriving DecidableEq

/-- `typeName` (schema.go): structural rendering for pointers, slices,
arrays and maps, `rv.String()` otherwise. -/
def typeName : GoTy → String
  | .ptr t => "*" ++ typeName t
  | .slice t => "[]" ++ typeName t
  | .array n t => "[" ++ toString n ++ "]" ++ typeName t
  | .mapTy k v => "map[" ++ typeName k ++ "]" ++ typeName v
  | .chan t => "chan " ++ typeName t
  | .str => "string"
  | .iface => "interface \x7b\x7d"
  | .errIface => "error"
  | .base s => s

/-- The method type as `reflect` reports it for a method found through
`rv.MethodByName`: the input list includes the receiver (so a method
with no arguments has `NumIn() == 1`). -/
structure GoMethod where
  ins : List GoTy
  outs : List GoTy
deriving DecidableEq

/-- A Go type together with its method set (method names are unique in
a Go method set). -/
structure GoType where
  ty : GoTy
  methods : List (String × GoMethod)
deriving DecidableEq

/-- `rv.MethodByName`. -/
def methodByName (gt : GoType) (s : String) : Option GoMethod :=
  (gt.methods.find? (fun p => p.1 == s)).map Prod.snd

/-- `InitializerArgumentStyle`. -/
inductive InitializerArgumentStyle where
  | singleArg : InitializerArgumentStyle
  | asSlice : InitializerArgumentStyle
deriving DecidableEq

/-- `schema.TypeSpec` (the fields the claims touch). -/
structure TypeSpec where
  name : String
  element : String
  rawType : String
  ptrType : String
  apparentType : String
  acceptValueMethodName : String
  getValueMethodName : String
  initArgStyle : InitializerArgumentStyle
  supportsLen : Bool
  isInterface : Bool
deriving DecidableEq

/-- `rv.Kind() == reflect.Interface`. -/
def GoTy.kindIsInterface : GoTy → Bool
  | .iface => true
  | .errIface => true
  | _ => false

/-- `schema.Type` (schema.go): derive raw and pointer types from the
kind; detect producer capability through a `GetValue` method with
`NumIn() == 1 && NumOut() == 1`, in which case the apparent type
becomes the return type; detect acceptor capability through an
`AcceptValue` method with `NumIn() == 2`, second input `interface`,
and exactly one `error` output; derive element and initializer style
from a slice-kinded apparent type, and `supportsLen` from the storage
kind. -/
def schemaType (gt : GoType) : TypeSpec :=
  let typ := typeName gt.ty
  let isInterface := gt.ty.kindIsInterface
  let rawPtr : String × String :=
    match gt.ty with
    | .ptr t => (typeName t, typ)
    | .slice _ => (typ, typ)
    | .iface => (typ, typ)
    | .errIface => (typ, typ)
    | .array _ _ => (typ, typ)
    | _ => (typ, "*" ++ typ)
  let producer : GoTy × String :=
    match methodByName gt "GetValue" with
    | some m =>
      if m.ins.length = 1 ∧ m.outs.length = 1 then
        (m.outs.headD gt.ty, "GetValue")
      else (gt.ty, "")
    | none => (gt.ty, "")
  let acceptValueMethodName : String :=
    match methodByName gt "AcceptValue" with
    | some m =>
      if m.ins.length = 2 ∧ m.ins.getD 1 (.base "") = .iface ∧
          m.outs.length = 1 ∧ m.outs.headD (.base "") = .errIface then
        "AcceptValue"
      else ""
    | none => ""
  let elemStyle : String × InitializerArgumentStyle :=
    match producer.1 with
    | .slice t => (typeName t, .asSlice)
    | _ => ("sketch.UnknownType", .singleArg)
  let supportsLen : Bool :=
    match gt.ty with
    | .slice _ => true
    | .mapTy _ _ => true
    | .chan _ => true
    | _ => false
  { name := typ
    element := elemStyle.1
    rawType := rawPtr.1
    ptrType := rawPtr.2
    apparentType := typeName producer.1
    acceptValueMethodName := acceptValueMethodName
    getValueMethodName := producer.2
    initArgStyle := elemStyle.2
    supportsLen := supportsLen
    isInterface := isInterface }

/-- `TypeSpec.GetApparentType`: the recorded apparent type, or the
storage type name when none was recorded. -/
def TypeSpec.getApparentType (ts : TypeSpec) : String :=
  if ts.apparentType = "" then ts.name else ts.apparentType

/-! ### Concrete instances used by witnesses and counterexamples -/

/-- The `Thing.Name` field of the spec's first example scenario. -/
def thingNameDecl : FieldDecl :=
  { name := "Name", json := "name", kind := .kstr, required := true,
    extension := false }

/-- A `Thing` with `Name` set to `"a"`. -/
def thingObj : Obj :=
  { fields := [(thingNameDecl, some (.vstr "a"))], extra := some [] }

/-- An extension-flagged string field. -/
def secretDecl : FieldDecl :=
  { name := "Secret", json := "secret", kind := .kstr, required := false,
    extension := true }

/-- An object whose only declared field is an extension field with
populated storage. -/
def extensionObj : Obj :=
  { fields := [(secretDecl, some (.vstr "x"))], extra := some [] }

/-- A non-required string-slice field. -/
def listDecl : FieldDecl :=
  { name := "List", json := "list", kind := .kstrList, required := false,
    extension := false }

/-- An object with a present but empty slice field. -/
def emptyListObj : Obj :=
  { fields := [(thingNameDecl, some (.vstr "a")), (listDecl, some (.vstrList []))],
    extra := some [] }

/-- Two declared fields listed in descending name order. -/
def fieldB : FieldDecl :=
  { name := "B", json := "b", kind := .kstr, required := false,
    extension := false }

def fieldA : FieldDecl :=
  { name := "A", json := "a", kind := .kstr, required := false,
    extension := false }

/-- A zero-value object over the `Thing` schema (nil extra map). -/
def zeroThing : Obj := freshObj [thingNameDecl]

/-- A builder holding a recorded setter error, with the required `Name`
field still absent in its object. -/
def builderWithErr : BuilderState :=
  { initialized := true, err := some (.setterErr "boom"),
    object := { fields := [(thingNameDecl, none)], extra := none } }

/-- A never-used (zero-value) builder. -/
def freshBuilder : BuilderState :=
  { initialized := false, err := none,
    object := { fields := [], extra := none } }

/-- The producer method of the `StringList`-style example type. -/
def slGetValueMethod : GoMethod :=
  { ins := [.ptr (.base "mypkg.StringList")], outs := [.slice .str] }

/-- The acceptor method of the `StringList`-style example type. -/
def slAcceptValueMethod : GoMethod :=
  { ins := [.ptr (.base "mypkg.StringList"), .iface], outs := [.errIface] }

/-- A storage type exposing both capability methods (in the shape of
the repository's `StringList` example): a producer returning
`[]string` and an acceptor taking `interface` and returning `error`. -/
def stringListGoType : GoType :=
  { ty := .ptr (.base "mypkg.StringList")
    methods :=
      [("GetValue", slGetValueMethod), ("AcceptValue", slAcceptValueMethod)] }



/-! ## Association-list helpers -/

theorem find_key_nodup {α : Type _} (l : List (String × α)) (k : String)
    (m : α) (hnd : (l.map Prod.fst).Nodup) (hm : (k, m) ∈ l) :
    l.find? (fun p => p.1 == k) = some (k, m) := by
  induction l with
  | nil => cases hm
  | cons a t ih =>
    simp only [List.map_cons, List.nodup_cons] at hnd
    rcases List.mem_cons.mp hm with he | hm'
    · rw [← he]
      simp [List.find?]
    · have hk : ¬ (a.1 == k) = true := by
        intro he
        apply hnd.1
        have : a.1 = k := by simpa using he
        rw [this]
        exact List.mem_map.mpr ⟨(k, m), hm', rfl⟩
      have hstep : List.find? (fun p => p.1 == k) (a :: t) =
          List.find? (fun p => p.1 == k) t :=
        List.find?_cons_of_neg _ hk
      rw [hstep]
      exact ih hnd.2 hm'

theorem find_key_shape {α : Type _} (l : List (String × α)) (k : String)
    (p : String × α) (h : l.find? (fun q => q.1 == k) = some p) :
    p ∈ l ∧ p.1 = k := by
  refine ⟨List.mem_of_find?_eq_some h, ?_⟩
  have := List.find?_some h
  simpa using this




/-! ## Claim theorems -/

/-- C8 counterexample: with the single declared field `Name` (wire key
`name`) set to `"a"`, the generated `MarshalJSON` does not return
exactly the bytes of the compact document: `json.Encoder.Encode`
appends a newline after every encoded token. -/
theorem c8_counterexample :
    thingObj.marshalBytes ≠ "\x7b\"name\":\"a\"\x7d" := by decide

/-- C8 amended: `MarshalJSON` on that object returns exactly the bytes
of the document with a newline after the encoded key and after the
encoded value (an equivalent JSON document up to whitespace). -/
theorem c8_marshal_thing_bytes :
    thingObj.marshalBytes = "\x7b\"name\"\n:\"a\"\n\x7d" := by decide

/-- C9 counterexample: the current compiler/main.go template hands the
schema's field list to the Template Engine unchanged, so with fields
authored in the order `B`, `A` the list is not name-sorted when the
per-object template runs. -/
theorem c9_counterexample :
    compilerMainTemplateFields [fieldB, fieldA] = [fieldB, fieldA] ∧
    ¬ List.Sorted fieldNameLe (compilerMainTemplateFields [fieldB, fieldA]) := by
  constructor
  · rfl
  · intro h
    have := List.rel_of_sorted_cons h fieldA (by simp)
    simp only [fieldNameLe, fieldB, fieldA] at this
    exact absurd this (by decide)

/-- C9 amended: the older main.go template sorts each object's field
list by field name (ascending) before executing the object template,
while the current compiler/main.go template passes the author-declared
field order through unchanged. -/
theorem c9_field_sorting (fields : List FieldDecl) :
    List.Sorted fieldNameLe (mainGoTemplateFields fields) ∧
    compilerMainTemplateFields fields = fields :=
  ⟨List.sorted_insertionSort fieldNameLe fields, rfl⟩

/-- C9 amended, witness at a concrete field list. -/
theorem c9_field_sorting_witness :
    List.Sorted fieldNameLe (mainGoTemplateFields [fieldB, fieldA]) ∧
    compilerMainTemplateFields [fieldB, fieldA] = [fieldB, fieldA] :=
  c9_field_sorting [fieldB, fieldA]

/-- C7: `FieldSpec.GetKeyName` delegates to the object's `GetKeyName`,
which concatenates the configured prefix (the empty string when none is
configured), the field name, and the fixed suffix `Key`; with the
key-prefix switch on an object named `Thing`, field `Name` yields
`ThingNameKey`, and without the switch it yields `NameKey`. -/
theorem c7_get_key_name :
    (∀ (b : SBase) (fieldName : String),
      fieldSpecGetKeyName fieldName b = b.keyNamePrefix ++ fieldName ++ "Key") ∧
    fieldSpecGetKeyName "Name" (compilerMainBase true "Thing" "pkg") =
      "ThingNameKey" ∧
    fieldSpecGetKeyName "Name" (compilerMainBase false "Thing" "pkg") =
      "NameKey" :=
  ⟨fun _ _ => rfl, by decide, by decide⟩

/-- C4 (code at the failing input): the object template ranges over all
fields of the schema without consulting the extension flag, so an
extension field with populated storage is returned by the generic `Get`
and serialized by `MarshalJSON`; only the builder template skips
extension fields when emitting typed setters. -/
theorem c4_extension_fields_visible :
    extensionObj.get "secret" = .ok (.jstr "x") ∧
    extensionObj.makePairs = [("secret", .jstr "x")] ∧
    extensionObj.marshalBytes = "\x7b\"secret\"\n:\"x\"\n\x7d" ∧
    builderSetterGenerated secretDecl (fun _ => true) = false :=
  ⟨rfl, rfl, by decide, by decide⟩

/-- C10: calling the generated `UnmarshalJSON` on an object whose extra
map was never allocated, with input containing a key that matches no
declared wire key (and whose value decodes), panics at the nil-map
assignment instead of storing the value or returning an error; the
declared fields stand reset at that point. -/
theorem c10_nil_extra_map_panics (v : Obj) (s : String) (rest : List Tok)
    (jv : Jval) (r2 : List Tok)
    (hextra : v.extra = none)
    (hdecl : findDecl (resetFields v.fields) s = none)
    (hdec : decodeValue rest = .ok (jv, r2)) :
    v.unmarshal (Tok.lbrace :: Tok.tstr s :: rest) =
      .panicked { v with fields := resetFields v.fields } := by
  show unmarshalLoop (rest.length + 1 + 2) _ _ = _
  simp only [unmarshalLoop, hdecl, hdec, hextra]

/-- C10 witness: the zero-value `Thing` object and the input
`\x7b"k":1\x7d`. -/
theorem c10_witness :
    zeroThing.extra = none ∧
    findDecl (resetFields zeroThing.fields) "k" = none ∧
    decodeValue [Tok.tnum 1, Tok.rbrace] = .ok (.jnum 1, [Tok.rbrace]) ∧
    zeroThing.unmarshal
        [Tok.lbrace, Tok.tstr "k", Tok.tnum 1, Tok.rbrace] =
      .panicked { zeroThing with fields := resetFields zeroThing.fields } :=
  ⟨rfl, by decide, rfl,
    c10_nil_extra_map_panics zeroThing "k" [Tok.tnum 1, Tok.rbrace]
      (.jnum 1) [Tok.rbrace] rfl (by decide) rfl⟩

/-- C3 counterexample: a builder that recorded a setter error returns
that error from `Build` even though a required field's storage is
absent, so `Build` does not fail with a required-field error although
a required field is missing — the claimed equivalence fails in that
state. -/
theorem c3_counterexample :
    (buildCall [thingNameDecl] builderWithErr).1 = .error (.setterErr "boom") ∧
    (buildCall [thingNameDecl] builderWithErr).1 ≠
      .error (.requiredField "Name") ∧
    builderWithErr.object.fields = [(thingNameDecl, none)] ∧
    thingNameDecl.required = true := by
  refine ⟨rfl, ?_, rfl, rfl⟩
  intro h
  have : (Err.setterErr "boom") = (Err.requiredField "Name") := by
    have h0 : (Except.error (Err.setterErr "boom") : Except Err Obj) =
        .error (.requiredField "Name") := h
    exact Except.error.inj h0
  cases this

/-- C3 amended: provided the builder holds no recorded setter error
after lazy initialization, `Build` fails with a required-field error if
and only if some required field's storage in the builder's internal
object (after lazy initialization) is absent; the error names such a
field; and when no required field is missing, `Build` returns the
internal object and resets the builder's state (fresh error, fresh
object) for reuse. -/
theorem c3_build_required (decls : List FieldDecl) (b : BuilderState)
    (hnoerr : (b.lazyInit decls).err = none) :
    ((∃ n, (buildCall decls b).1 = .error (.requiredField n)) ↔
      ∃ fo ∈ (b.lazyInit decls).object.fields,
        fo.1.required = true ∧ fo.2 = none) ∧
    (∀ n, (buildCall decls b).1 = .error (.requiredField n) →
      ∃ fo ∈ (b.lazyInit decls).object.fields,
        fo.1.required = true ∧ fo.2 = none ∧ fo.1.name = n) ∧
    ((¬ ∃ fo ∈ (b.lazyInit decls).object.fields,
        fo.1.required = true ∧ fo.2 = none) →
      (buildCall decls b).1 = .ok (b.lazyInit decls).object ∧
      (buildCall decls b).2 =
        { initialized := true, err := none, object := freshObj decls }) := by
  have hcall : buildCall decls b =
      match firstMissingRequired (b.lazyInit decls).object.fields with
      | some d => (.error (.requiredField d.name), b.lazyInit decls)
      | none =>
        (.ok (b.lazyInit decls).object,
          { initialized := true, err := none, object := freshObj decls }) := by
    unfold buildCall
    rw [hnoerr]
  cases hfind :
      firstMissingRequired (b.lazyInit decls).object.fields with
  | some d =>
    rw [hfind] at hcall
    have hex : ∃ fo ∈ (b.lazyInit decls).object.fields,
        fo.1.required = true ∧ fo.2 = none ∧ fo.1.name = d.name := by
      unfold firstMissingRequired at hfind
      rcases Option.map_eq_some'.mp hfind with ⟨fo, hfo, hfo1⟩
      have hp := List.find?_some hfo
      have hmem := List.mem_of_find?_eq_some hfo
      simp only [Bool.and_eq_true, Option.isNone_iff_eq_none] at hp
      exact ⟨fo, hmem, hp.1, hp.2, by rw [hfo1]⟩
    refine ⟨?_, ?_, ?_⟩
    · constructor
      · intro _
        rcases hex with ⟨fo, hm, hr, ha, _⟩
        exact ⟨fo, hm, hr, ha⟩
      · intro _
        exact ⟨d.name, by rw [hcall]⟩
    · intro n hn
      rw [hcall] at hn
      have : Err.requiredField d.name = Err.requiredField n :=
        Except.error.inj hn
      rcases hex with ⟨fo, hm, hr, ha, hname⟩
      exact ⟨fo, hm, hr, ha, hname.trans (Err.requiredField.inj this)⟩
    · intro hno
      exfalso
      rcases hex with ⟨fo, hm, hr, ha, _⟩
      exact hno ⟨fo, hm, hr, ha⟩
  | none =>
    rw [hfind] at hcall
    have hnone : ∀ fo ∈ (b.lazyInit decls).object.fields,
        ¬ (fo.1.required = true ∧ fo.2 = none) := by
      intro fo hm hc
      have := List.find?_eq_none.mp (by
        unfold firstMissingRequired at hfind
        exact Option.map_eq_none'.mp hfind) fo hm
      simp only [Bool.and_eq_true, Option.isNone_iff_eq_none] at this
      exact this ⟨hc.1, hc.2⟩
    refine ⟨?_, ?_, ?_⟩
    · constructor
      · intro ⟨n, hn⟩
        rw [hcall] at hn
        cases hn
      · intro ⟨fo, hm, hr, ha⟩
        exact absurd ⟨hr, ha⟩ (hnone fo hm)
    · intro n hn
      rw [hcall] at hn
      cases hn
    · intro _
      rw [hcall]
      exact ⟨rfl, rfl⟩

/-- C3 amended, witness: a zero-value builder over the `Thing` schema
(no recorded error after lazy initialization); `Build` fails with a
required-field error exactly because `Name` is required and absent. -/
theorem c3_build_required_witness :
    (∃ n, (buildCall [thingNameDecl] freshBuilder).1 =
        .error (.requiredField n)) ↔
      ∃ fo ∈ (freshBuilder.lazyInit [thingNameDecl]).object.fields,
        fo.1.required = true ∧ fo.2 = none :=
  (c3_build_required [thingNameDecl] freshBuilder rfl).1

/-- C6: `schema.Type` records producer capability (method name
`GetValue`) exactly when the type's method set holds a `GetValue`
method with `NumIn() == 1` (receiver only, i.e. no arguments) and
`NumOut() == 1`, and then the apparent type is that method's return
type; it records acceptor capability (`AcceptValue`) exactly when the
method set holds an `AcceptValue` with two inputs (receiver plus one
`interface` argument) and exactly one `error` output; without a
producer the apparent type stays the storage type; and
`GetApparentType` returns the storage type name verbatim when no
apparent type was recorded. -/
theorem c6_capability_detection (gt : GoType)
    (hnd : (gt.methods.map Prod.fst).Nodup) :
    ((schemaType gt).getValueMethodName = "GetValue" ↔
      ∃ m : GoMethod, ("GetValue", m) ∈ gt.methods ∧
        m.ins.length = 1 ∧ m.outs.length = 1) ∧
    (∀ m : GoMethod, ("GetValue", m) ∈ gt.methods → m.ins.length = 1 →
      m.outs.length = 1 →
      (schemaType gt).apparentType = typeName (m.outs.headD gt.ty)) ∧
    ((schemaType gt).getValueMethodName = "" →
      (schemaType gt).apparentType = typeName gt.ty) ∧
    ((schemaType gt).acceptValueMethodName = "AcceptValue" ↔
      ∃ m : GoMethod, ("AcceptValue", m) ∈ gt.methods ∧
        m.ins.length = 2 ∧ m.ins.getD 1 (.base "") = .iface ∧
        m.outs.length = 1 ∧ m.outs.headD (.base "") = .errIface) ∧
    (∀ ts : TypeSpec, ts.apparentType = "" → ts.getApparentType = ts.name) := by
  have hGv : ∀ m : GoMethod, ("GetValue", m) ∈ gt.methods →
      methodByName gt "GetValue" = some m := by
    intro m hm
    unfold methodByName
    rw [find_key_nodup gt.methods "GetValue" m hnd hm]
    rfl
  have hAv : ∀ m : GoMethod, ("AcceptValue", m) ∈ gt.methods →
      methodByName gt "AcceptValue" = some m := by
    intro m hm
    unfold methodByName
    rw [find_key_nodup gt.methods "AcceptValue" m hnd hm]
    rfl
  have hGmem : ∀ m : GoMethod, methodByName gt "GetValue" = some m →
      ("GetValue", m) ∈ gt.methods := by
    intro m hm
    unfold methodByName at hm
    rcases Option.map_eq_some'.mp hm with ⟨p, hp, hp2⟩
    rcases find_key_shape gt.methods "GetValue" p hp with ⟨hmem, hk⟩
    have : p = ("GetValue", m) := by
      cases p
      simp only at hp2 hk
      rw [hk, hp2]
    rw [← this]
    exact hmem
  have hAmem : ∀ m : GoMethod, methodByName gt "AcceptValue" = some m →
      ("AcceptValue", m) ∈ gt.methods := by
    intro m hm
    unfold methodByName at hm
    rcases Option.map_eq_some'.mp hm with ⟨p, hp, hp2⟩
    rcases find_key_shape gt.methods "AcceptValue" p hp with ⟨hmem, hk⟩
    have : p = ("AcceptValue", m) := by
      cases p
      simp only at hp2 hk
      rw [hk, hp2]
    rw [← this]
    exact hmem
  refine ⟨?_, ?_, ?_, ?_, ?_⟩
  · cases hG : methodByName gt "GetValue" with
    | none =>
      constructor
      · intro h
        exfalso
        revert h
        simp only [schemaType, hG]
        intro h
        exact absurd h (by decide)
      · intro ⟨m, hm, _, _⟩
        rw [hGv m hm] at hG
        cases hG
    | some m =>
      by_cases harr : m.ins.length = 1 ∧ m.outs.length = 1
      · constructor
        · intro _
          exact ⟨m, hGmem m hG, harr.1, harr.2⟩
        · intro _
          simp only [schemaType, hG, if_pos harr]
      · constructor
        · intro h
          exfalso
          revert h
          simp only [schemaType, hG, if_neg harr]
          intro h
          exact absurd h (by decide)
        · intro ⟨m2, hm2, hi, ho⟩
          have := (hGv m2 hm2).symm.trans hG
          have hm2m : m2 = m := Option.some.inj this
          exact absurd ⟨hm2m ▸ hi, hm2m ▸ ho⟩ harr
  · intro m hm hi ho
    have hG := hGv m hm
    simp only [schemaType, hG, if_pos (And.intro hi ho)]
  · intro h
    cases hG : methodByName gt "GetValue" with
    | none => simp only [schemaType, hG]
    | some m =>
      by_cases harr : m.ins.length = 1 ∧ m.outs.length = 1
      · exfalso
        revert h
        simp only [schemaType, hG, if_pos harr]
        intro h
        exact absurd h (by decide)
      · simp only [schemaType, hG, if_neg harr]
  · cases hA : methodByName gt "AcceptValue" with
    | none =>
      constructor
      · intro h
        exfalso
        revert h
        simp only [schemaType, hA]
        intro h
        exact absurd h (by decide)
      · intro ⟨m, hm, _⟩
        rw [hAv m hm] at hA
        cases hA
    | some m =>
      by_cases harr : m.ins.length = 2 ∧ m.ins.getD 1 (.base "") = .iface ∧
          m.outs.length = 1 ∧ m.outs.headD (.base "") = .errIface
      · constructor
        · intro _
          exact ⟨m, hAmem m hA, harr⟩
        · intro _
          simp only [schemaType, hA, if_pos harr]
      · constructor
        · intro h
          exfalso
          revert h
          simp only [schemaType, hA, if_neg harr]
          intro h
          exact absurd h (by decide)
        · intro ⟨m2, hm2, hrest⟩
          have := (hAv m2 hm2).symm.trans hA
          have hm2m : m2 = m := Option.some.inj this
          exact absurd (hm2m ▸ hrest) harr
  · intro ts h
    unfold TypeSpec.getApparentType
    rw [if_pos h]

/-- C6 witness: a pointer type with a producer returning `[]string`
and a conforming acceptor — both capabilities detected, the apparent
type is `[]string`. -/
theorem c6_capability_witness :
    (schemaType stringListGoType).getValueMethodName = "GetValue" ∧
    (schemaType stringListGoType).apparentType = "[]string" ∧
    (schemaType stringListGoType).acceptValueMethodName = "AcceptValue" := by
  have h := c6_capability_detection stringListGoType (by decide)
  refine ⟨?_, ?_, ?_⟩
  · exact h.1.mpr ⟨slGetValueMethod, by decide, rfl, rfl⟩
  · have happ := h.2.1 slGetValueMethod (by decide) rfl rfl
    rw [happ]
    rfl
  · exact h.2.2.2.1.mpr ⟨slAcceptValueMethod, by decide, rfl, rfl, rfl, rfl⟩


/-! ## C2: marshal determinism and key sortedness -/

theorem sorted_nodupkeys_perm_eq : ∀ (l1 l2 : List (String × Jval)),
    l1.Perm l2 → List.Sorted pairLe l1 → List.Sorted pairLe l2 →
    (l1.map Prod.fst).Nodup → l1 = l2
  | [], l2, hp, _, _, _ => hp.nil_eq
  | a :: t1, [], hp, _, _, _ => absurd hp.eq_nil (by simp)
  | a :: t1, b :: t2, hp, hs1, hs2, hnd => by
    by_cases hab : a = b
    · subst hab
      have ht := hp.cons_inv
      have := sorted_nodupkeys_perm_eq t1 t2 ht
        (List.sorted_cons.mp hs1).2 (List.sorted_cons.mp hs2).2
        (by simpa using (List.nodup_cons.mp (by simpa using hnd)).2)
      rw [this]
    · exfalso
      have hain : a ∈ b :: t2 := hp.mem_iff.mp (by simp)
      have hat2 : a ∈ t2 := by
        rcases List.mem_cons.mp hain with he | hm
        · exact absurd he hab
        · exact hm
      have hbin : b ∈ a :: t1 := hp.mem_iff.mpr (by simp)
      have hbt1 : b ∈ t1 := by
        rcases List.mem_cons.mp hbin with he | hm
        · exact absurd he.symm hab
        · exact hm
      have hab1 : pairLe a b := (List.sorted_cons.mp hs1).1 b hbt1
      have hba1 : pairLe b a := (List.sorted_cons.mp hs2).1 a hat2
      have hnames : a.1 = b.1 := strLe_antisymm hab1 hba1
      have : a.1 ∉ t1.map Prod.fst :=
        (List.nodup_cons.mp (by simpa using hnd)).1
      exact this (hnames ▸ List.mem_map.mpr ⟨b, hbt1, rfl⟩)

/-- C2: the output of `MarshalJSON` is independent of the (Go-runtime
dependent) enumeration order of the extra map — two calls on the same
populated state are byte-identical — and the keys of the serialized
object appear in ascending lexicographic order.  The hypothesis is the
well-formedness every reachable state has: the extra keys are pairwise
distinct (map keys) and distinct from the present declared wire
keys. -/
theorem c2_marshal_deterministic (v : Obj) (e1 e2 : List (String × Jval))
    (hperm : e1.Perm e2)
    (hnd : ((declaredPairs v.fields ++ e1).map Prod.fst).Nodup) :
    Obj.marshalBytes { v with extra := some e1 } =
      Obj.marshalBytes { v with extra := some e2 } ∧
    List.Sorted strLe
      ((Obj.makePairs { v with extra := some e1 }).map Prod.fst) := by
  have hmk1 : Obj.makePairs { v with extra := some e1 } =
      sortPairs (declaredPairs v.fields ++ e1) := rfl
  have hmk2 : Obj.makePairs { v with extra := some e2 } =
      sortPairs (declaredPairs v.fields ++ e2) := rfl
  have hp : (declaredPairs v.fields ++ e1).Perm
      (declaredPairs v.fields ++ e2) := List.Perm.append_left _ hperm
  have hperm1 : (sortPairs (declaredPairs v.fields ++ e1)).Perm
      (declaredPairs v.fields ++ e1) := List.perm_insertionSort pairLe _
  have hperm2 : (sortPairs (declaredPairs v.fields ++ e2)).Perm
      (declaredPairs v.fields ++ e2) := List.perm_insertionSort pairLe _
  have heq : sortPairs (declaredPairs v.fields ++ e1) =
      sortPairs (declaredPairs v.fields ++ e2) := by
    apply sorted_nodupkeys_perm_eq
    · exact hperm1.trans (hp.trans hperm2.symm)
    · exact List.sorted_insertionSort pairLe _
    · exact List.sorted_insertionSort pairLe _
    · exact ((hperm1.map Prod.fst).nodup_iff).mpr hnd
  constructor
  · unfold Obj.marshalBytes
    rw [hmk1, hmk2, heq]
  · rw [hmk1]
    have hs := List.sorted_insertionSort pairLe (declaredPairs v.fields ++ e1)
    exact List.pairwise_map.mpr hs

/-- Extra-map contents for the C2 witness, in one enumeration order. -/
def c2Enum1 : List (String × Jval) := [("z", .jnum 1), ("b", .jbool true)]

/-- The same contents in the other enumeration order. -/
def c2Enum2 : List (String × Jval) := [("b", .jbool true), ("z", .jnum 1)]

/-- C2 witness: the `Thing` state with two extra entries, enumerated in
either order. -/
theorem c2_marshal_deterministic_witness :
    Obj.marshalBytes { thingObj with extra := some c2Enum1 } =
      Obj.marshalBytes { thingObj with extra := some c2Enum2 } ∧
    List.Sorted strLe
      ((Obj.makePairs { thingObj with extra := some c2Enum1 }).map Prod.fst) :=
  c2_marshal_deterministic thingObj c2Enum1 c2Enum2
    (by unfold c2Enum1 c2Enum2
        exact List.Perm.swap ("b", Jval.jbool true) ("z", Jval.jnum 1) [])
    (by decide)


/-! ## C5: frame properties of UnmarshalJSON -/

theorem dec_suffix : ∀ fuel : Nat,
    (∀ toks v r2, decV fuel toks = .ok (v, r2) → r2.IsSuffix toks) ∧
    (∀ toks acc v r2, decArr fuel toks acc = .ok (v, r2) → r2.IsSuffix toks) ∧
    (∀ toks acc v r2, decObj fuel toks acc = .ok (v, r2) → r2.IsSuffix toks) := by
  intro fuel
  induction fuel using Nat.strong_induction_on with
  | _ fuel ih =>
    match fuel with
    | 0 =>
      refine ⟨?_, ?_, ?_⟩ <;> intro toks <;> intros <;>
        simp_all [decV, decArr, decObj]
    | f + 1 =>
      have ihf := ih f (by omega)
      refine ⟨?_, ?_, ?_⟩
      · intro toks v r2 h
        match toks with
        | [] => simp [decV] at h
        | t :: rest =>
          cases t <;> simp only [decV] at h
          · exact (ihf.2.2 rest [] v r2 h).trans (List.suffix_cons _ _)
          · simp at h
          · exact (ihf.2.1 rest [] v r2 h).trans (List.suffix_cons _ _)
          · simp at h
          all_goals
            (rcases h with ⟨rfl, rfl⟩; exact List.suffix_cons _ _)
      · intro toks acc v r2 h
        match toks with
        | [] => simp [decArr] at h
        | t :: rest =>
          by_cases ht : t = Tok.rbrack
          · subst ht
            simp only [decArr] at h
            rcases h with ⟨rfl, rfl⟩
            exact List.suffix_cons _ _
          · have hred : decArr (f + 1) (t :: rest) acc =
                match decV f (t :: rest) with
                | .error e => .error e
                | .ok (v2, r3) => decArr f r3 (acc ++ [v2]) := by
              cases t <;> first | rfl | exact absurd rfl ht
            rw [hred] at h
            cases hd : decV f (t :: rest) with
            | error e => rw [hd] at h; cases h
            | ok p =>
              rw [hd] at h
              have h1 := ihf.1 (t :: rest) p.1 p.2 (by rw [hd])
              have h2 := ihf.2.1 p.2 (acc ++ [p.1]) v r2 h
              exact h2.trans h1
      · intro toks acc v r2 h
        match toks with
        | [] => simp [decObj] at h
        | t :: rest =>
          cases t <;> simp only [decObj] at h
          case rbrace =>
            rcases h with ⟨rfl, rfl⟩
            exact List.suffix_cons _ _
          case tstr s =>
            cases hd : decV f rest with
            | error e => rw [hd] at h; cases h
            | ok p =>
              rw [hd] at h
              have h1 := ihf.1 rest p.1 p.2 (by rw [hd])
              have h2 := ihf.2.2 p.2 (mapUpd acc s p.1) v r2 h
              exact (h2.trans h1).trans (List.suffix_cons _ _)
          all_goals cases h


theorem decStrsIn_suffix : ∀ toks l r2,
    decStrsIn toks = .ok (l, r2) → r2.IsSuffix toks := by
  intro toks
  induction toks with
  | nil => intro l r2 h; simp [decStrsIn] at h
  | cons t rest ih =>
    intro l r2 h
    cases t <;> simp only [decStrsIn] at h
    case rbrack =>
      rcases h with ⟨_, rfl⟩
      exact List.suffix_cons _ _
    case tstr s =>
      cases hd : decStrsIn rest with
      | error e => rw [hd] at h; cases h
      | ok p =>
        rw [hd] at h
        rcases h with ⟨_, rfl⟩
        exact (ih p.1 p.2 (by rw [hd])).trans (List.suffix_cons _ _)
    case tnull =>
      cases hd : decStrsIn rest with
      | error e => rw [hd] at h; cases h
      | ok p =>
        rw [hd] at h
        rcases h with ⟨_, rfl⟩
        exact (ih p.1 p.2 (by rw [hd])).trans (List.suffix_cons _ _)
    all_goals cases h


theorem decNumMapIn_suffix : ∀ toks acc l r2,
    decNumMapIn toks acc = .ok (l, r2) → r2.IsSuffix toks := by
  intro toks acc
  induction toks, acc using decNumMapIn.induct with
  | case1 acc =>
    intro l r2 h
    simp [decNumMapIn] at h
  | case2 acc r =>
    intro l r2 h
    simp only [decNumMapIn] at h
    rcases h with ⟨_, rfl⟩
    exact List.suffix_cons _ _
  | case3 acc k n r ih =>
    intro l r2 h
    simp only [decNumMapIn] at h
    exact ((ih l r2 h).trans (List.suffix_cons _ _)).trans
      (List.suffix_cons _ _)
  | case4 acc k r ih =>
    intro l r2 h
    simp only [decNumMapIn] at h
    exact ((ih l r2 h).trans (List.suffix_cons _ _)).trans
      (List.suffix_cons _ _)
  | case5 t acc h1 h2 h3 h4 =>
    intro l r2 h
    exfalso
    unfold decNumMapIn at h
    split at h
    · exact h1 rfl
    · exact h2 _ rfl
    · exact h3 _ _ _ rfl
    · exact h4 _ _ rfl
    · simp at h

theorem decodeField_suffix (k : FieldKind) (toks : List Tok)
    (sv : Option FieldVal) (r2 : List Tok)
    (h : decodeField k toks = .ok (sv, r2)) : r2.IsSuffix toks := by
  match k, toks with
  | _, [] => simp [decodeField] at h
  | .kstr, t :: rest =>
    cases t <;> simp only [decodeField] at h <;>
      first
      | (rcases h with ⟨_, rfl⟩; exact List.suffix_cons _ _)
      | cases h
  | .knum, t :: rest =>
    cases t <;> simp only [decodeField] at h <;>
      first
      | (rcases h with ⟨_, rfl⟩; exact List.suffix_cons _ _)
      | cases h
  | .kbool, t :: rest =>
    cases t <;> simp only [decodeField] at h <;>
      first
      | (rcases h with ⟨_, rfl⟩; exact List.suffix_cons _ _)
      | cases h
  | .kstrList, t :: rest =>
    cases t <;> simp only [decodeField] at h
    case lbrack =>
      cases hd : decStrsIn rest with
      | error e => rw [hd] at h; cases h
      | ok p =>
        rw [hd] at h
        rcases h with ⟨_, rfl⟩
        exact (decStrsIn_suffix rest p.1 p.2 hd).trans (List.suffix_cons _ _)
    case tnull =>
      rcases h with ⟨_, rfl⟩
      exact List.suffix_cons _ _
    all_goals cases h
  | .knumMap, t :: rest =>
    cases t <;> simp only [decodeField] at h
    case lbrace =>
      cases hd : decNumMapIn rest [] with
      | error e => rw [hd] at h; cases h
      | ok p =>
        rw [hd] at h
        rcases h with ⟨_, rfl⟩
        exact (decNumMapIn_suffix rest [] p.1 p.2 hd).trans
          (List.suffix_cons _ _)
    case tnull =>
      rcases h with ⟨_, rfl⟩
      exact List.suffix_cons _ _
    all_goals cases h

theorem decodeValue_suffix (toks : List Tok) (jv : Jval) (r2 : List Tok)
    (h : decodeValue toks = .ok (jv, r2)) : r2.IsSuffix toks :=
  (dec_suffix (2 * toks.length + 2)).1 toks jv r2 h


theorem lookupStr_cons (p : String × Jval) (m : List (String × Jval))
    (k : String) :
    lookupStr (p :: m) k = if p.1 = k then some p.2 else lookupStr m k := by
  by_cases h : p.1 = k
  · unfold lookupStr
    rw [List.find?_cons]
    simp [h]
  · unfold lookupStr
    rw [List.find?_cons]
    have hb : (p.1 == k) = false := by simpa using h
    rw [hb, if_neg h]

theorem lookupStr_map_replace (m : List (String × Jval)) (s : String)
    (jv : Jval) (k : String) (hks : k ≠ s) :
    lookupStr (m.map fun p => if p.1 == s then (s, jv) else p) k =
      lookupStr m k := by
  induction m with
  | nil => rfl
  | cons p t ih =>
    rw [List.map_cons]
    by_cases hps : p.1 = s
    · have hhead : (if (p.1 == s) = true then (s, jv) else p) = (s, jv) :=
        if_pos (by simpa using hps)
      rw [hhead, lookupStr_cons, lookupStr_cons]
      have h1 : ¬ ((s, jv).1 = k) := fun he => hks he.symm
      have h2 : ¬ (p.1 = k) := by
        intro he
        rw [hps] at he
        exact hks he.symm
      rw [if_neg h1, if_neg h2, ih]
    · have hhead : (if (p.1 == s) = true then (s, jv) else p) = p :=
        if_neg (by simpa using hps)
      rw [hhead, lookupStr_cons, lookupStr_cons]
      by_cases hpk : p.1 = k
      · rw [if_pos hpk, if_pos hpk]
      · rw [if_neg hpk, if_neg hpk, ih]

theorem lookupStr_append_single_ne (m : List (String × Jval)) (s : String)
    (jv : Jval) (k : String) (hks : k ≠ s) :
    lookupStr (m ++ [(s, jv)]) k = lookupStr m k := by
  induction m with
  | nil =>
    rw [List.nil_append, lookupStr_cons,
      if_neg (show ¬ ((s, jv).1 = k) from fun he => hks he.symm)]
  | cons p t ih =>
    rw [List.cons_append, lookupStr_cons, lookupStr_cons]
    by_cases hpk : p.1 = k
    · rw [if_pos hpk, if_pos hpk]
    · rw [if_neg hpk, if_neg hpk, ih]

theorem lookupStr_mapUpd_ne (m : List (String × Jval)) (s : String)
    (jv : Jval) (k : String) (hks : k ≠ s) :
    lookupStr (mapUpd m s jv) k = lookupStr m k := by
  unfold mapUpd
  by_cases hany : m.any (fun p => p.1 == s) = true
  · rw [if_pos hany]
    exact lookupStr_map_replace m s jv k hks
  · rw [if_neg hany]
    exact lookupStr_append_single_ne m s jv k hks

theorem lookupStr_isSome_any (m : List (String × Jval)) (k : String)
    (h : (lookupStr m k).isSome) : m.any (fun p => p.1 == k) = true := by
  unfold lookupStr at h
  cases hf : m.find? (fun p => p.1 == k) with
  | none => rw [hf] at h; simp at h
  | some p =>
    rcases find_key_shape m k p hf with ⟨hm, _⟩
    have hpk := List.find?_some hf
    exact List.any_eq_true.mpr ⟨p, hm, hpk⟩

theorem lookupStr_replace_self (m : List (String × Jval)) (k : String)
    (jv : Jval) (hany : m.any (fun p => p.1 == k) = true) :
    lookupStr (m.map fun p => if p.1 == k then (k, jv) else p) k =
      some jv := by
  induction m with
  | nil => simp at hany
  | cons p t ih =>
    rw [List.map_cons]
    by_cases hpk : p.1 = k
    · have hhead : (if (p.1 == k) = true then (k, jv) else p) = (k, jv) :=
        if_pos (by simpa using hpk)
      rw [hhead, lookupStr_cons, if_pos rfl]
    · have hhead : (if (p.1 == k) = true then (k, jv) else p) = p :=
        if_neg (by simpa using hpk)
      rw [hhead, lookupStr_cons, if_neg hpk]
      have htany : t.any (fun p => p.1 == k) = true := by
        rcases List.any_eq_true.mp hany with ⟨q, hq, hqk⟩
        rcases List.mem_cons.mp hq with rfl | hqt
        · exact absurd (by simpa using hqk) hpk
        · exact List.any_eq_true.mpr ⟨q, hqt, hqk⟩
      exact ih htany

theorem lookupStr_mapUpd_isSome (m : List (String × Jval)) (s : String)
    (jv : Jval) (k : String) (h : (lookupStr m k).isSome) :
    (lookupStr (mapUpd m s jv) k).isSome := by
  by_cases hks : k = s
  · subst hks
    unfold mapUpd
    rw [if_pos (lookupStr_isSome_any m k h)]
    rw [lookupStr_replace_self m k jv (lookupStr_isSome_any m k h)]
    rfl
  · rw [lookupStr_mapUpd_ne m s jv k hks]
    exact h


theorem resetFields_idem (fs : List (FieldDecl × Option FieldVal)) :
    resetFields (resetFields fs) = resetFields fs := by
  simp [resetFields]

theorem unmarshalLoop_extra_lookup : ∀ fuel (v : Obj) (toks : List Tok)
    (k : String), Tok.tstr k ∉ toks →
    lookupStr (extraEnum (unmarshalLoop fuel v toks).state.extra) k =
      lookupStr (extraEnum v.extra) k := by
  intro fuel
  induction fuel using Nat.strong_induction_on with
  | _ fuel ih =>
    match fuel with
    | 0 => intro v toks k _; rfl
    | f + 1 =>
      intro v toks k hk
      match toks with
      | [] => rfl
      | t :: rest =>
        have hkrest : Tok.tstr k ∉ rest := fun hm =>
          hk (List.mem_cons_of_mem _ hm)
        cases t
        case lbrace =>
          simp only [unmarshalLoop]
          exact ih f (by omega) v rest k hkrest
        case rbrace => rfl
        case lbrack => rfl
        case rbrack => rfl
        case tnum n =>
          simp only [unmarshalLoop]
          exact ih f (by omega) v rest k hkrest
        case tbool b =>
          simp only [unmarshalLoop]
          exact ih f (by omega) v rest k hkrest
        case tnull =>
          simp only [unmarshalLoop]
          exact ih f (by omega) v rest k hkrest
        case tstr s =>
          have hsk : s ≠ k := fun he =>
            hk (by rw [he]; exact List.mem_cons_self _ _)
          cases hfd : findDecl v.fields s with
          | some fo =>
            cases hdf : decodeField fo.1.kind rest with
            | error e => simp only [unmarshalLoop, hfd, hdf, URes.state]
            | ok p =>
              obtain ⟨sv, r2⟩ := p
              simp only [unmarshalLoop, hfd, hdf]
              have hk2 : Tok.tstr k ∉ r2 := fun hm => hkrest
                ((decodeField_suffix fo.1.kind rest sv r2 hdf).sublist.subset hm)
              exact ih f (by omega)
                { v with fields := setField v.fields s sv } r2 k hk2
          | none =>
            cases hdv : decodeValue rest with
            | error e => simp only [unmarshalLoop, hfd, hdv, URes.state]
            | ok p =>
              obtain ⟨jv, r2⟩ := p
              cases hex : v.extra with
              | none => simp only [unmarshalLoop, hfd, hdv, hex, URes.state]
              | some m =>
                simp only [unmarshalLoop, hfd, hdv, hex]
                have hk2 : Tok.tstr k ∉ r2 := fun hm => hkrest
                  ((decodeValue_suffix rest jv r2 hdv).sublist.subset hm)
                have hrec := ih f (by omega)
                  { v with extra := some (mapUpd m s jv) } r2 k hk2
                rw [hrec]
                show lookupStr (mapUpd m s jv) k = lookupStr m k
                exact lookupStr_mapUpd_ne m s jv k (fun he => hsk he.symm)

theorem unmarshalLoop_extra_isSome : ∀ fuel (v : Obj) (toks : List Tok)
    (k : String), (lookupStr (extraEnum v.extra) k).isSome →
    (lookupStr (extraEnum (unmarshalLoop fuel v toks).state.extra) k).isSome := by
  intro fuel
  induction fuel using Nat.strong_induction_on with
  | _ fuel ih =>
    match fuel with
    | 0 => intro v toks k h; exact h
    | f + 1 =>
      intro v toks k h
      match toks with
      | [] => exact h
      | t :: rest =>
        cases t
        case lbrace =>
          simp only [unmarshalLoop]
          exact ih f (by omega) v rest k h
        case rbrace => exact h
        case lbrack => exact h
        case rbrack => exact h
        case tnum n =>
          simp only [unmarshalLoop]
          exact ih f (by omega) v rest k h
        case tbool b =>
          simp only [unmarshalLoop]
          exact ih f (by omega) v rest k h
        case tnull =>
          simp only [unmarshalLoop]
          exact ih f (by omega) v rest k h
        case tstr s =>
          cases hfd : findDecl v.fields s with
          | some fo =>
            cases hdf : decodeField fo.1.kind rest with
            | error e =>
              simp only [unmarshalLoop, hfd, hdf, URes.state]
              exact h
            | ok p =>
              obtain ⟨sv, r2⟩ := p
              simp only [unmarshalLoop, hfd, hdf]
              exact ih f (by omega)
                { v with fields := setField v.fields s sv } r2 k h
          | none =>
            cases hdv : decodeValue rest with
            | error e =>
              simp only [unmarshalLoop, hfd, hdv, URes.state]
              exact h
            | ok p =>
              obtain ⟨jv, r2⟩ := p
              cases hex : v.extra with
              | none =>
                simp only [unmarshalLoop, hfd, hdv, hex, URes.state]
                rw [hex] at h
                exact h
              | some m =>
                simp only [unmarshalLoop, hfd, hdv, hex]
                apply ih f (by omega)
                  { v with extra := some (mapUpd m s jv) } r2 k
                show (lookupStr (mapUpd m s jv) k).isSome
                apply lookupStr_mapUpd_isSome
                rw [hex] at h
                exact h

/-- C5: `UnmarshalJSON` resets all declared-field storage before
reading any input token — the outcome never depends on the prior field
values — and never resets the extra storage: an extra entry under a key
that never occurs as a string token of the input keeps its exact value,
and every pre-existing extra entry stays present (possibly overwritten
by a decoded key), in all outcomes including a decode failure partway
or a panic. -/
theorem c5_unmarshal_frame (v : Obj) (toks : List Tok) (k k2 : String)
    (hk : Tok.tstr k ∉ toks)
    (h2 : (lookupStr (extraEnum v.extra) k2).isSome) :
    Obj.unmarshal v toks =
      Obj.unmarshal { v with fields := resetFields v.fields } toks ∧
    lookupStr (extraEnum (Obj.unmarshal v toks).state.extra) k =
      lookupStr (extraEnum v.extra) k ∧
    (lookupStr (extraEnum (Obj.unmarshal v toks).state.extra) k2).isSome := by
  refine ⟨?_, ?_, ?_⟩
  · unfold Obj.unmarshal
    rw [resetFields_idem]
  · exact unmarshalLoop_extra_lookup (toks.length + 1)
      { v with fields := resetFields v.fields } toks k hk
  · exact unmarshalLoop_extra_isSome (toks.length + 1)
      { v with fields := resetFields v.fields } toks k2 h2

/-- An object with a stale field value and one extra entry. -/
def c5Obj : Obj :=
  { fields := [(thingNameDecl, some (.vstr "old"))],
    extra := some [("keep", .jnum 7)] }

/-- An input that fails partway: the declared key `name` is followed by
an object where a string is required. -/
def c5Toks : List Tok := [Tok.lbrace, Tok.tstr "name", Tok.lbrace]

/-- C5 witness: on the failing input, the extra entry `keep` persists
untouched. -/
theorem c5_unmarshal_frame_witness :
    Obj.unmarshal c5Obj c5Toks =
      Obj.unmarshal { c5Obj with fields := resetFields c5Obj.fields } c5Toks ∧
    lookupStr (extraEnum (Obj.unmarshal c5Obj c5Toks).state.extra) "keep" =
      lookupStr (extraEnum c5Obj.extra) "keep" ∧
    (lookupStr (extraEnum (Obj.unmarshal c5Obj c5Toks).state.extra) "keep").isSome :=
  c5_unmarshal_frame c5Obj c5Toks "keep" "keep" (by decide) (by decide)


/-! ## C1: round trip

Canonicity: a decoded open value whose object members are sorted
strictly by key, as the repository's byte encoder emits them. -/

/-- Strictly ascending keys of an association list. -/
def keysStrictSorted {α : Type _} : List (String × α) → Bool
  | [] => true
  | [_] => true
  | a :: b :: rest =>
    strLtB a.1.data b.1.data && keysStrictSorted (b :: rest)

theorem keysStrictSorted_cons {α : Type _} :
    ∀ (m : String × α) (ms : List (String × α)),
    keysStrictSorted (m :: ms) = true →
    keysStrictSorted ms = true ∧
      ∀ p ∈ ms, strLtB m.1.data p.1.data = true
  | _, [], _ => ⟨rfl, by simp⟩
  | m, m2 :: rest, h => by
    have h3 : strLtB m.1.data m2.1.data = true ∧
        keysStrictSorted (m2 :: rest) = true := by
      simpa [keysStrictSorted, Bool.and_eq_true] using h
    have ihr := keysStrictSorted_cons m2 rest h3.2
    refine ⟨h3.2, ?_⟩
    intro p hp
    rcases List.mem_cons.mp hp with rfl | hpr
    · exact h3.1
    · exact strLtB_trans _ _ _ h3.1 (ihr.2 p hpr)

theorem keysStrictSorted_nodup {α : Type _} :
    ∀ ms : List (String × α), keysStrictSorted ms = true →
    (ms.map Prod.fst).Nodup
  | [], _ => by simp
  | m :: ms, h => by
    rcases keysStrictSorted_cons m ms h with ⟨hms, hlt⟩
    rw [List.map_cons, List.nodup_cons]
    refine ⟨?_, keysStrictSorted_nodup ms hms⟩
    intro hmem
    rcases List.mem_map.mp hmem with ⟨p, hp, hpe⟩
    have hx := hlt p hp
    rw [hpe] at hx
    rw [strLtB_irrefl] at hx
    cases hx

mutual

/-- Canonical decoded open values: every object member list is sorted
strictly by key (the shape the encoder writes and a decode of encoder
output produces). -/
def Jval.canonical : Jval → Bool
  | .jarr elems => Jval.canonicalArr elems
  | .jobj members => keysStrictSorted members && Jval.canonicalVals members
  | _ => true

/-- All array elements canonical. -/
def Jval.canonicalArr : List Jval → Bool
  | [] => true
  | x :: rest => x.canonical && Jval.canonicalArr rest

/-- All member values canonical. -/
def Jval.canonicalVals : List (String × Jval) → Bool
  | [] => true
  | m :: rest => m.2.canonical && Jval.canonicalVals rest

end

theorem canonicalArr_mem :
    ∀ elems, Jval.canonicalArr elems = true →
    ∀ x ∈ elems, Jval.canonical x = true
  | [], _, x, hx => by cases hx
  | e :: rest, h, x, hx => by
    have h2 : Jval.canonical e = true ∧ Jval.canonicalArr rest = true := by
      simpa [Jval.canonicalArr, Bool.and_eq_true] using h
    rcases List.mem_cons.mp hx with rfl | hxr
    · exact h2.1
    · exact canonicalArr_mem rest h2.2 x hxr

theorem canonicalVals_mem :
    ∀ ms, Jval.canonicalVals ms = true →
    ∀ p ∈ ms, Jval.canonical p.2 = true
  | [], _, p, hp => by cases hp
  | m :: rest, h, p, hp => by
    have h2 : Jval.canonical m.2 = true ∧ Jval.canonicalVals rest = true := by
      simpa [Jval.canonicalVals, Bool.and_eq_true] using h
    rcases List.mem_cons.mp hp with rfl | hpr
    · exact h2.1
    · exact canonicalVals_mem rest h2.2 p hpr

/-- Canonical stored field values: map-shaped storage enumerates its
keys in strictly ascending order. -/
def FieldVal.canonicalF : FieldVal → Bool
  | .vnumMap l => keysStrictSorted l
  | _ => true


theorem encToks_length_pos : ∀ v : Jval, 1 ≤ (Jval.encToks v).length := by
  intro v
  cases v <;> simp [Jval.encToks]

theorem decArr_cons_ne_rbrack (f : Nat) (t : Tok) (rest : List Tok)
    (acc : List Jval) (h : t ≠ Tok.rbrack) :
    decArr (f + 1) (t :: rest) acc =
      match decV f (t :: rest) with
      | .error e => .error e
      | .ok (v, r2) => decArr f r2 (acc ++ [v]) := by
  cases t <;> first | rfl | exact absurd rfl h

theorem encToks_head_ne_rbrack (v : Jval) :
    ∃ t ts, Jval.encToks v = t :: ts ∧ t ≠ Tok.rbrack := by
  cases v <;> exact ⟨_, _, rfl, fun h => Tok.noConfusion h⟩

theorem nodup_append_fresh {α : Type _} (acc ms : List (String × α))
    (k : String) (v0 : α)
    (h : ((acc ++ (k, v0) :: ms).map Prod.fst).Nodup) :
    ∀ p ∈ acc, ¬ (p.1 = k) := by
  intro p hp hpk
  rw [List.map_append, List.nodup_append] at h
  exact h.2.2 (List.mem_map.mpr ⟨p, hp, rfl⟩)
    (by rw [List.map_cons]; exact hpk ▸ List.mem_cons_self _ _)

theorem mapUpd_append_fresh (m : List (String × Jval)) (k : String)
    (v : Jval) (h : ∀ p ∈ m, ¬ (p.1 = k)) :
    mapUpd m k v = m ++ [(k, v)] := by
  unfold mapUpd
  rw [if_neg]
  intro hany
  rcases List.any_eq_true.mp hany with ⟨p, hp, hpk⟩
  exact h p hp (by simpa using hpk)

theorem decV_encToks : ∀ fuel : Nat,
    (∀ v rest, Jval.canonical v = true →
      2 * (Jval.encToks v).length ≤ fuel →
      decV fuel (Jval.encToks v ++ rest) = .ok (v, rest)) ∧
    (∀ elems acc rest, Jval.canonicalArr elems = true →
      2 * (Jval.encToksArr elems).length + 1 ≤ fuel →
      decArr fuel (Jval.encToksArr elems ++ Tok.rbrack :: rest) acc =
        .ok (.jarr (acc ++ elems), rest)) ∧
    (∀ membs acc rest, Jval.canonicalVals membs = true →
      ((acc ++ membs).map Prod.fst).Nodup →
      2 * (Jval.encToksObj membs).length + 1 ≤ fuel →
      decObj fuel (Jval.encToksObj membs ++ Tok.rbrace :: rest) acc =
        .ok (.jobj (acc ++ membs), rest)) := by
  intro fuel
  induction fuel using Nat.strong_induction_on with
  | _ fuel ih =>
    match fuel with
    | 0 =>
      refine ⟨?_, ?_, ?_⟩
      · intro v rest _ hf
        have := encToks_length_pos v
        omega
      · intro elems acc rest _ hf
        omega
      · intro membs acc rest _ _ hf
        omega
    | f + 1 =>
      have ihf := ih f (by omega)
      refine ⟨?_, ?_, ?_⟩
      · intro v rest hc hf
        cases v with
        | null => rfl
        | jbool b => rfl
        | jnum n => rfl
        | jstr s => rfl
        | jarr elems =>
          have hca : Jval.canonicalArr elems = true := by
            simpa [Jval.canonical] using hc
          have hlen : (Jval.encToks (.jarr elems)).length =
              (Jval.encToksArr elems).length + 2 := by
            simp [Jval.encToks]
          simp only [Jval.encToks, List.cons_append, List.append_assoc,
            List.singleton_append]
          show decArr f (Jval.encToksArr elems ++ Tok.rbrack :: rest) [] = _
          rw [ihf.2.1 elems [] rest hca (by rw [hlen] at hf; omega)]
          simp
        | jobj membs =>
          have hcsplit : keysStrictSorted membs = true ∧
              Jval.canonicalVals membs = true := by
            simpa [Jval.canonical, Bool.and_eq_true] using hc
          have hlen : (Jval.encToks (.jobj membs)).length =
              (Jval.encToksObj membs).length + 2 := by
            simp [Jval.encToks]
          simp only [Jval.encToks, List.cons_append, List.append_assoc,
            List.singleton_append]
          show decObj f (Jval.encToksObj membs ++ Tok.rbrace :: rest) [] = _
          rw [ihf.2.2 membs [] rest hcsplit.2
            (by simpa using keysStrictSorted_nodup membs hcsplit.1)
            (by rw [hlen] at hf; omega)]
          simp
      · intro elems acc rest hca hf
        cases elems with
        | nil =>
          show decArr (f + 1) (Tok.rbrack :: rest) acc = _
          simp [decArr]
        | cons x xs =>
          have hsplit : Jval.canonical x = true ∧
              Jval.canonicalArr xs = true := by
            simpa [Jval.canonicalArr, Bool.and_eq_true] using hca
          have hlen : (Jval.encToksArr (x :: xs)).length =
              (Jval.encToks x).length + (Jval.encToksArr xs).length := by
            simp [Jval.encToksArr]
          have hxpos := encToks_length_pos x
          rcases encToks_head_ne_rbrack x with ⟨t, ts, hx, hne⟩
          show decArr (f + 1)
            ((Jval.encToks x ++ Jval.encToksArr xs) ++ Tok.rbrack :: rest)
            acc = _
          rw [List.append_assoc, hx, List.cons_append,
            decArr_cons_ne_rbrack f t
              (ts ++ (Jval.encToksArr xs ++ Tok.rbrack :: rest)) acc hne,
            ← List.cons_append, ← hx,
            ihf.1 x (Jval.encToksArr xs ++ Tok.rbrack :: rest) hsplit.1
              (by rw [hlen] at hf; omega)]
          show decArr f (Jval.encToksArr xs ++ Tok.rbrack :: rest)
            (acc ++ [x]) = _
          rw [ihf.2.1 xs (acc ++ [x]) rest hsplit.2
            (by rw [hlen] at hf; omega)]
          rw [← List.append_cons]
      · intro membs acc rest hcv hnd hf
        cases membs with
        | nil =>
          show decObj (f + 1) (Tok.rbrace :: rest) acc = _
          simp [decObj]
        | cons m ms =>
          obtain ⟨k, v0⟩ := m
          have hsplit : Jval.canonical v0 = true ∧
              Jval.canonicalVals ms = true := by
            simpa [Jval.canonicalVals, Bool.and_eq_true] using hcv
          have hlen : (Jval.encToksObj ((k, v0) :: ms)).length =
              (Jval.encToks v0).length + (Jval.encToksObj ms).length + 1 := by
            simp [Jval.encToksObj]
          have hvpos := encToks_length_pos v0
          show decObj (f + 1)
            ((Tok.tstr k :: Jval.encToks v0 ++ Jval.encToksObj ms) ++
              Tok.rbrace :: rest) acc = _
          simp only [List.cons_append, List.append_assoc]
          show (match decV f (Jval.encToks v0 ++
              (Jval.encToksObj ms ++ Tok.rbrace :: rest)) with
            | .error e => (.error e : Except Err (Jval × List Tok))
            | .ok (v, r2) => decObj f r2 (mapUpd acc k v)) = _
          rw [ihf.1 v0 (Jval.encToksObj ms ++ Tok.rbrace :: rest) hsplit.1
            (by rw [hlen] at hf; omega)]
          show decObj f (Jval.encToksObj ms ++ Tok.rbrace :: rest)
            (mapUpd acc k v0) = _
          rw [mapUpd_append_fresh acc k v0 (nodup_append_fresh acc ms k v0 hnd)]
          rw [ihf.2.2 ms (acc ++ [(k, v0)]) rest hsplit.2
            (by rw [← List.append_cons]; exact hnd)
            (by rw [hlen] at hf; omega)]
          rw [← List.append_cons]

theorem decodeValue_encToks (v : Jval) (rest : List Tok)
    (hc : Jval.canonical v = true) :
    decodeValue (Jval.encToks v ++ rest) = .ok (v, rest) := by
  apply (decV_encToks (2 * (Jval.encToks v ++ rest).length + 2)).1 v rest hc
  rw [List.length_append]
  omega

theorem decStrsIn_enc : ∀ (l : List String) (rest : List Tok),
    decStrsIn (Jval.encToksArr (l.map Jval.jstr) ++ Tok.rbrack :: rest) =
      .ok (l, rest)
  | [], rest => rfl
  | s :: l, rest => by
    show decStrsIn ((Jval.encToks (Jval.jstr s) ++
      Jval.encToksArr (l.map Jval.jstr)) ++ Tok.rbrack :: rest) = _
    simp only [Jval.encToks, List.cons_append, List.nil_append]
    show (match decStrsIn (Jval.encToksArr (l.map Jval.jstr) ++
        Tok.rbrack :: rest) with
      | .error e => (.error e : Except Err (List String × List Tok))
      | .ok (l2, r2) => .ok (s :: l2, r2)) = _
    rw [decStrsIn_enc l rest]

theorem numMapUpd_append_fresh (m : List (String × Int)) (k : String)
    (n : Int) (h : ∀ p ∈ m, ¬ (p.1 = k)) :
    numMapUpd m k n = m ++ [(k, n)] := by
  unfold numMapUpd
  rw [if_neg]
  intro hany
  rcases List.any_eq_true.mp hany with ⟨p, hp, hpk⟩
  exact h p hp (by simpa using hpk)

theorem decNumMapIn_enc : ∀ (l : List (String × Int))
    (acc : List (String × Int)) (rest : List Tok),
    ((acc ++ l).map Prod.fst).Nodup →
    decNumMapIn
      (Jval.encToksObj (l.map fun p => (p.1, Jval.jnum p.2)) ++
        Tok.rbrace :: rest) acc = .ok (acc ++ l, rest)
  | [], acc, rest, _ => by simp [Jval.encToksObj, decNumMapIn]
  | (k, n) :: l, acc, rest, hnd => by
    show decNumMapIn ((Tok.tstr k ::
        Jval.encToks (Jval.jnum n) ++
        Jval.encToksObj (l.map fun p => (p.1, Jval.jnum p.2))) ++
        Tok.rbrace :: rest) acc = _
    simp only [Jval.encToks, List.cons_append, List.nil_append]
    show decNumMapIn
        (Jval.encToksObj (l.map fun p => (p.1, Jval.jnum p.2)) ++
          Tok.rbrace :: rest) (numMapUpd acc k n) = _
    rw [numMapUpd_append_fresh acc k n (nodup_append_fresh acc l k n hnd),
      decNumMapIn_enc l (acc ++ [(k, n)]) rest
        (by rw [← List.append_cons]; exact hnd),
      ← List.append_cons]

/-- `Decode` into the field's raw storage type recovers a canonical
stored value exactly from its own encoding. -/
theorem decodeField_enc (val : FieldVal) (rest : List Tok)
    (hc : FieldVal.canonicalF val = true) :
    decodeField val.kind (val.toJval.encToks ++ rest) =
      .ok (some val, rest) := by
  match val with
  | .vstr s => rfl
  | .vnum n => rfl
  | .vbool b => rfl
  | .vstrList l =>
    show decodeField .kstrList
      ((Tok.lbrack :: Jval.encToksArr (l.map Jval.jstr) ++ [Tok.rbrack]) ++
        rest) = _
    simp only [List.cons_append, List.append_assoc, List.singleton_append]
    show (match decStrsIn (Jval.encToksArr (l.map Jval.jstr) ++
        Tok.rbrack :: rest) with
      | .error e => (.error e : Except Err (Option FieldVal × List Tok))
      | .ok (l2, r2) => .ok (some (.vstrList l2), r2)) = _
    rw [decStrsIn_enc l rest]
  | .vnumMap l =>
    show decodeField .knumMap
      ((Tok.lbrace ::
        Jval.encToksObj (l.map fun p => (p.1, Jval.jnum p.2)) ++
        [Tok.rbrace]) ++ rest) = _
    simp only [List.cons_append, List.append_assoc, List.singleton_append]
    show (match decNumMapIn
        (Jval.encToksObj (l.map fun p => (p.1, Jval.jnum p.2)) ++
          Tok.rbrace :: rest) [] with
      | .error e => (.error e : Except Err (Option FieldVal × List Tok))
      | .ok (m, r2) => .ok (some (.vnumMap m), r2)) = _
    rw [decNumMapIn_enc l [] rest
      (by simpa using keysStrictSorted_nodup l hc)]
    rfl

/-- The stored value a successful field decode produces, as a function
of the declared kind and the (already decoded) open value on the wire
(the tail of the stream does not influence it). -/
def decodedOf (k : FieldKind) (j : Jval) : Option FieldVal :=
  match decodeField k j.encToks with
  | .ok (sv, _) => sv
  | .error _ => none

theorem decodedOf_toJval (val : FieldVal) (k : FieldKind)
    (hk : k = val.kind) (hc : FieldVal.canonicalF val = true) :
    decodedOf k val.toJval = some val := by
  subst hk
  unfold decodedOf
  rw [show val.toJval.encToks = val.toJval.encToks ++ [] by
    rw [List.append_nil], decodeField_enc val [] hc]

theorem Obj.ext2 {a b : Obj} (h1 : a.fields = b.fields)
    (h2 : a.extra = b.extra) : a = b := by
  cases a; cases b; cases h1; cases h2; rfl

/-- `findDecl` only inspects the declaration part of each entry, so it
commutes with any entry map that preserves declarations. -/
theorem findDecl_map_pres
    (g : FieldDecl × Option FieldVal → FieldDecl × Option FieldVal)
    (hg : ∀ fo, (g fo).1 = fo.1) :
    ∀ (fs : List (FieldDecl × Option FieldVal)) (key : String),
    findDecl (fs.map g) key = (findDecl fs key).map g
  | [], _ => rfl
  | fo :: fs, key => by
    show List.find? (fun q => q.1.json == key) (g fo :: fs.map g) = _
    cases hk : (fo.1.json == key) with
    | true =>
      have h1 : List.find? (fun q => q.1.json == key) (g fo :: fs.map g) =
          some (g fo) :=
        List.find?_cons_of_pos _ (by rw [hg fo]; exact hk)
      have h2 : List.find? (fun q => q.1.json == key) (fo :: fs) =
          some fo :=
        List.find?_cons_of_pos _ hk
      rw [h1]
      show _ = (List.find? (fun q => q.1.json == key) (fo :: fs)).map g
      rw [h2]
      rfl
    | false =>
      have h1 : List.find? (fun q => q.1.json == key) (g fo :: fs.map g) =
          List.find? (fun q => q.1.json == key) (fs.map g) :=
        List.find?_cons_of_neg _ (by rw [hg fo]; simp [hk])
      have h2 : List.find? (fun q => q.1.json == key) (fo :: fs) =
          List.find? (fun q => q.1.json == key) fs :=
        List.find?_cons_of_neg _ (by simp [hk])
      rw [h1]
      show _ = (List.find? (fun q => q.1.json == key) (fo :: fs)).map g
      rw [h2]
      exact findDecl_map_pres g hg fs key

theorem setField_decl_pres (k : String) (sv : Option FieldVal) :
    ∀ fo : FieldDecl × Option FieldVal,
    ((if fo.1.json == k then (fo.1, sv) else fo) : _).1 = fo.1 := by
  intro fo
  by_cases h : (fo.1.json == k) = true
  · rw [if_pos h]
  · rw [if_neg h]

theorem findDecl_setField (fs : List (FieldDecl × Option FieldVal))
    (k : String) (sv : Option FieldVal) (key : String) :
    findDecl (setField fs k sv) key =
      (findDecl fs key).map
        fun fo => if fo.1.json == k then (fo.1, sv) else fo :=
  findDecl_map_pres _ (setField_decl_pres k sv) fs key

theorem findDecl_resetFields (fs : List (FieldDecl × Option FieldVal))
    (key : String) :
    findDecl (resetFields fs) key =
      (findDecl fs key).map fun fo => (fo.1, none) := by
  show findDecl (fs.map fun fo => (fo.1, (none : Option FieldVal))) key = _
  exact findDecl_map_pres (fun fo => (fo.1, none)) (fun _ => rfl) fs key

/-- With unique wire keys, the key switch resolves a field's own wire
key to that field. -/
theorem findDecl_self :
    ∀ (fs : List (FieldDecl × Option FieldVal))
      (fo : FieldDecl × Option FieldVal),
    ((fs.map fun q => q.1.json).Nodup) → fo ∈ fs →
    findDecl fs fo.1.json = some fo
  | [], _, _, hm => by cases hm
  | q :: fs, fo, hnd, hm => by
    simp only [List.map_cons, List.nodup_cons] at hnd
    rcases List.mem_cons.mp hm with rfl | hm'
    · exact List.find?_cons_of_pos _ (by simp)
    · have hk : ¬ (q.1.json == fo.1.json) = true := by
        intro he
        exact hnd.1 (by
          rw [show q.1.json = fo.1.json by simpa using he]
          exact List.mem_map.mpr ⟨fo, hm', rfl⟩)
      have hstep : List.find? (fun p => p.1.json == fo.1.json) (q :: fs) =
          List.find? (fun p => p.1.json == fo.1.json) fs :=
        List.find?_cons_of_neg _ hk
      show List.find? (fun p => p.1.json == fo.1.json) (q :: fs) = some fo
      rw [hstep]
      exact findDecl_self fs fo hnd.2 hm'

/-- In-place map overwrite with the value already present is the
identity (keys unique). -/
theorem mapUpd_mem_self (m : List (String × Jval)) (k : String) (v : Jval)
    (hmem : (k, v) ∈ m) (hnd : (m.map Prod.fst).Nodup) :
    mapUpd m k v = m := by
  unfold mapUpd
  rw [if_pos (List.any_eq_true.mpr ⟨(k, v), hmem, by simp⟩)]
  have : ∀ p ∈ m, (if p.1 == k then ((k, v) : String × Jval) else p) = p := by
    intro p hp
    by_cases h : (p.1 == k) = true
    · rw [if_pos h]
      have hp1 : p.1 = k := by simpa using h
      exact List.inj_on_of_nodup_map hnd hmem hp (by simp [hp1])
    · rw [if_neg h]
  rw [List.map_congr_left this, List.map_id']

/-- What one loop iteration of the generated `UnmarshalJSON` does with
one key/value pair: a declared wire key re-decodes into the field's
storage, any other key is assigned into the extra map. -/
def applyP (v : Obj) (p : String × Jval) : Obj :=
  match findDecl v.fields p.1 with
  | some fo => { v with fields := setField v.fields p.1 (decodedOf fo.1.kind p.2) }
  | none => { v with extra := some (mapUpd (extraEnum v.extra) p.1 p.2) }

/-- A well-formed wire pair for the current object state: a declared
key carries the canonical encoding of a storable value of the declared
kind; any other key carries a canonical open value and requires a
non-nil extra map. -/
def PairOk (v : Obj) (p : String × Jval) : Prop :=
  match findDecl v.fields p.1 with
  | some fo => ∃ val : FieldVal, p.2 = val.toJval ∧ fo.1.kind = val.kind ∧
      FieldVal.canonicalF val = true
  | none => Jval.canonical p.2 = true ∧ v.extra.isSome = true

theorem applyP_extra_isSome (v : Obj) (q : String × Jval)
    (h : v.extra.isSome = true) : (applyP v q).extra.isSome = true := by
  unfold applyP
  cases hfd : findDecl v.fields q.1 with
  | some fo => exact h
  | none => rfl

theorem findDecl_applyP_fst (v : Obj) (q : String × Jval) (key : String) :
    (findDecl (applyP v q).fields key).map Prod.fst =
      (findDecl v.fields key).map Prod.fst := by
  unfold applyP
  cases hfd : findDecl v.fields q.1 with
  | none => rfl
  | some fo =>
    show (findDecl (setField v.fields q.1 (decodedOf fo.1.kind q.2))
      key).map Prod.fst = _
    rw [findDecl_setField]
    cases findDecl v.fields key with
    | none => rfl
    | some r =>
      show some ((if r.1.json == q.1
        then (r.1, decodedOf fo.1.kind q.2) else r)).1 = some r.1
      rw [setField_decl_pres]

theorem PairOk_applyP (v : Obj) (p q : String × Jval)
    (h : PairOk v p) : PairOk (applyP v q) p := by
  have hext := applyP_extra_isSome v q
  have hfst := findDecl_applyP_fst v q p.1
  cases hfd : findDecl v.fields p.1 with
  | none =>
    rw [hfd] at hfst
    simp only [PairOk, hfd] at h
    cases hfd2 : findDecl (applyP v q).fields p.1 with
    | none =>
      simp only [PairOk, hfd2]
      exact ⟨h.1, hext h.2⟩
    | some r => rw [hfd2] at hfst; simp at hfst
  | some fo =>
    rw [hfd] at hfst
    simp only [PairOk, hfd] at h
    cases hfd2 : findDecl (applyP v q).fields p.1 with
    | none => rw [hfd2] at hfst; simp at hfst
    | some r =>
      rw [hfd2] at hfst
      have hr : r.1 = fo.1 := by simpa using hfst
      simp only [PairOk, hfd2]
      rcases h with ⟨val, hv, hk, hc⟩
      exact ⟨val, hv, by rw [hr]; exact hk, hc⟩

theorem pairsToks_length_ge : ∀ ps : List (String × Jval),
    ps.length ≤ (pairsToks ps).length
  | [] => Nat.le_refl 0
  | q :: ps => by
    show (q :: ps).length ≤
      ((Tok.tstr q.1 :: q.2.encToks) ++ pairsToks ps).length
    have h1 := pairsToks_length_ge ps
    have h2 := encToks_length_pos q.2
    simp only [List.length_cons, List.length_append]
    omega

/-- Streaming the serialized pairs through the token loop applies each
pair in order and ends at the closing `'\x7d'`. -/
theorem unmarshalLoop_pairsToks : ∀ (ps : List (String × Jval)) (fuel : Nat)
    (v : Obj) (rest : List Tok),
    ps.length + 1 ≤ fuel →
    (∀ p ∈ ps, PairOk v p) →
    unmarshalLoop fuel v (pairsToks ps ++ Tok.rbrace :: rest) =
      .ok (ps.foldl applyP v)
  | [], fuel, v, rest, hf, _ => by
    obtain ⟨f, rfl⟩ : ∃ f, fuel = f + 1 := ⟨fuel - 1, by omega⟩
    show unmarshalLoop (f + 1) v (Tok.rbrace :: rest) = .ok v
    rfl
  | q :: ps, fuel, v, rest, hf, hok => by
    obtain ⟨f, rfl⟩ : ∃ f, fuel = f + 1 := ⟨fuel - 1, by omega⟩
    have hq := hok q (List.mem_cons_self q ps)
    have hps : ∀ p ∈ ps, PairOk (applyP v q) p := fun p hp =>
      PairOk_applyP v p q (hok p (List.mem_cons_of_mem q hp))
    have hfu : ps.length + 1 ≤ f := by
      simp only [List.length_cons] at hf
      omega
    have hstream : pairsToks (q :: ps) ++ Tok.rbrace :: rest =
        Tok.tstr q.1 ::
          (q.2.encToks ++ (pairsToks ps ++ Tok.rbrace :: rest)) := by
      show (Tok.tstr q.1 :: q.2.encToks) ++ pairsToks ps ++
        Tok.rbrace :: rest = _
      simp [List.cons_append, List.append_assoc]
    rw [hstream]
    cases hfd : findDecl v.fields q.1 with
    | some fo =>
      simp only [PairOk, hfd] at hq
      rcases hq with ⟨val, hv, hk, hc⟩
      have hdf : decodeField fo.1.kind
          (q.2.encToks ++ (pairsToks ps ++ Tok.rbrace :: rest)) =
          .ok (some val, pairsToks ps ++ Tok.rbrace :: rest) := by
        rw [hv, hk]
        exact decodeField_enc val _ hc
      have hdec : decodedOf fo.1.kind q.2 = some val := by
        rw [hv, hk]
        exact decodedOf_toJval val val.kind rfl hc
      simp only [unmarshalLoop, hfd, hdf]
      rw [List.foldl_cons]
      have happ : applyP v q =
          { v with fields := setField v.fields q.1 (some val) } := by
        simp only [applyP, hfd, hdec]
      rw [← happ]
      exact unmarshalLoop_pairsToks ps f (applyP v q) rest hfu hps
    | none =>
      simp only [PairOk, hfd] at hq
      cases hex : v.extra with
      | none => rw [hex] at hq; simp at hq
      | some m =>
        have hdv : decodeValue
            (q.2.encToks ++ (pairsToks ps ++ Tok.rbrace :: rest)) =
            .ok (q.2, pairsToks ps ++ Tok.rbrace :: rest) :=
          decodeValue_encToks q.2 _ hq.1
        simp only [unmarshalLoop, hfd, hdv, hex]
        rw [List.foldl_cons]
        have happ : applyP v q =
            { v with extra := some (mapUpd m q.1 q.2) } := by
          simp only [applyP, hfd, hex, extraEnum]
        rw [← happ]
        exact unmarshalLoop_pairsToks ps f (applyP v q) rest hfu hps

/-- The cumulative effect of a pair list on one declared-field slot:
the first pair carrying the slot's wire key re-decodes into it; no
such pair leaves it alone. -/
def pairPatch (ps : List (String × Jval)) (fo : FieldDecl × Option FieldVal) :
    FieldDecl × Option FieldVal :=
  match ps.find? fun p => p.1 == fo.1.json with
  | some p => (fo.1, decodedOf fo.1.kind p.2)
  | none => fo

theorem pairPatch_eval_none (ps : List (String × Jval))
    (fo : FieldDecl × Option FieldVal) (h : ∀ p ∈ ps, ¬ p.1 = fo.1.json) :
    pairPatch ps fo = fo := by
  unfold pairPatch
  have hstep : List.find? (fun p => p.1 == fo.1.json) ps = none :=
    List.find?_eq_none.mpr (fun p hp => by simpa using h p hp)
  rw [hstep]

theorem pairPatch_cons_eq (q : String × Jval) (ps : List (String × Jval))
    (fo : FieldDecl × Option FieldVal) (h : q.1 = fo.1.json) :
    pairPatch (q :: ps) fo = (fo.1, decodedOf fo.1.kind q.2) := by
  unfold pairPatch
  have hstep : List.find? (fun p => p.1 == fo.1.json) (q :: ps) = some q :=
    List.find?_cons_of_pos _ (by simp [h])
  rw [hstep]

theorem pairPatch_cons_ne (q : String × Jval) (ps : List (String × Jval))
    (fo : FieldDecl × Option FieldVal) (h : ¬ q.1 = fo.1.json) :
    pairPatch (q :: ps) fo = pairPatch ps fo := by
  unfold pairPatch
  have hstep : List.find? (fun p => p.1 == fo.1.json) (q :: ps) =
      List.find? (fun p => p.1 == fo.1.json) ps :=
    List.find?_cons_of_neg _ (by simpa using h)
  rw [hstep]

theorem setField_jsons (fs : List (FieldDecl × Option FieldVal))
    (k : String) (sv : Option FieldVal) :
    ((setField fs k sv).map fun fo => fo.1.json) =
      fs.map fun fo => fo.1.json := by
  show (((fs.map fun fo => if fo.1.json == k then (fo.1, sv) else fo)).map
    fun fo => fo.1.json) = _
  rw [List.map_map]
  apply List.map_congr_left
  intro fo _
  simp only [Function.comp_apply]
  rw [setField_decl_pres]

theorem applyP_jsons (v : Obj) (q : String × Jval) :
    ((applyP v q).fields.map fun fo => fo.1.json) =
      v.fields.map fun fo => fo.1.json := by
  unfold applyP
  cases hfd : findDecl v.fields q.1 with
  | some fo => exact setField_jsons v.fields q.1 (decodedOf fo.1.kind q.2)
  | none => rfl

/-- Applying a pair list with pairwise-distinct keys patches each
declared-field slot independently (wire keys unique). -/
theorem foldl_applyP_fields : ∀ (ps : List (String × Jval)) (v : Obj),
    (ps.map Prod.fst).Nodup →
    ((v.fields.map fun fo => fo.1.json).Nodup) →
    (ps.foldl applyP v).fields = v.fields.map (pairPatch ps)
  | [], v, _, _ => by
    show v.fields = v.fields.map (pairPatch [])
    have : ∀ fo ∈ v.fields, pairPatch [] fo = fo := fun fo _ =>
      pairPatch_eval_none [] fo (by simp)
    rw [List.map_congr_left this, List.map_id']
  | q :: ps, v, hnd, hjs => by
    rw [List.foldl_cons]
    have hnd' : (ps.map Prod.fst).Nodup := by
      simp only [List.map_cons, List.nodup_cons] at hnd
      exact hnd.2
    have hqf : q.1 ∉ ps.map Prod.fst := by
      simp only [List.map_cons, List.nodup_cons] at hnd
      exact hnd.1
    have hjs' : ((applyP v q).fields.map fun fo => fo.1.json).Nodup := by
      rw [applyP_jsons]
      exact hjs
    rw [foldl_applyP_fields ps (applyP v q) hnd' hjs']
    cases hfd : findDecl v.fields q.1 with
    | none =>
      have hfq : (applyP v q).fields = v.fields := by
        unfold applyP
        rw [hfd]
      rw [hfq]
      apply List.map_congr_left
      intro fo hfo
      have hne : ¬ q.1 = fo.1.json := by
        intro heq
        exact List.find?_eq_none.mp hfd fo hfo (by simp [heq])
      exact (pairPatch_cons_ne q ps fo hne).symm
    | some fo0 =>
      have hfq : (applyP v q).fields =
          setField v.fields q.1 (decodedOf fo0.1.kind q.2) := by
        unfold applyP
        rw [hfd]
      rw [hfq]
      show (((v.fields.map fun fo =>
          if fo.1.json == q.1 then (fo.1, decodedOf fo0.1.kind q.2)
          else fo)).map (pairPatch ps)) = _
      rw [List.map_map]
      apply List.map_congr_left
      intro fo hfo
      simp only [Function.comp_apply]
      by_cases hbe : (fo.1.json == q.1) = true
      · have heq : fo.1.json = q.1 := by simpa using hbe
        have hfo0 : fo0 = fo := by
          have hself := findDecl_self v.fields fo hjs hfo
          rw [heq] at hself
          rw [hself] at hfd
          exact (Option.some.inj hfd).symm
        subst hfo0
        rw [if_pos hbe]
        rw [pairPatch_eval_none ps (fo0.1, decodedOf fo0.1.kind q.2)
          (fun p hp hpe => hqf (List.mem_map.mpr ⟨p, hp, hpe.trans heq⟩))]
        rw [pairPatch_cons_eq q ps fo0 heq.symm]
      · rw [if_neg hbe]
        exact (pairPatch_cons_ne q ps fo
          (fun hq1 => hbe (by simp [hq1]))).symm

/-- Applying pairs whose keys are either declared wire keys or keys
already present in the extra map leaves the extra map unchanged: the
declared pairs never touch it, and an in-place overwrite with the value
already stored is the identity. -/
theorem foldl_applyP_extra : ∀ (ps : List (String × Jval)) (v : Obj),
    (∀ p ∈ ps, (findDecl v.fields p.1).isSome = true ∨
      ((p.1, p.2) ∈ extraEnum v.extra ∧
        ((extraEnum v.extra).map Prod.fst).Nodup)) →
    (ps.foldl applyP v).extra = v.extra
  | [], _, _ => rfl
  | q :: ps, v, h => by
    rw [List.foldl_cons]
    have hq := h q (List.mem_cons_self q ps)
    cases hfd : findDecl v.fields q.1 with
    | some fo =>
      have hext : (applyP v q).extra = v.extra := by
        unfold applyP
        rw [hfd]
      have hstb : ∀ p ∈ ps, (findDecl (applyP v q).fields p.1).isSome = true ∨
          ((p.1, p.2) ∈ extraEnum (applyP v q).extra ∧
            ((extraEnum (applyP v q).extra).map Prod.fst).Nodup) := by
        intro p hp
        rcases h p (List.mem_cons_of_mem q hp) with hl | hr
        · left
          have hiso := findDecl_applyP_fst v q p.1
          cases hfp : findDecl v.fields p.1 with
          | none => rw [hfp] at hl; simp at hl
          | some r =>
            cases hfp2 : findDecl (applyP v q).fields p.1 with
            | none => rw [hfp, hfp2] at hiso; simp at hiso
            | some r2 => simp
        · right
          rw [hext]
          exact hr
      rw [foldl_applyP_extra ps (applyP v q) hstb, hext]
    | none =>
      rcases hq with hl | hr
      · rw [hfd] at hl
        simp at hl
      · cases hex : v.extra with
        | none =>
          rw [hex] at hr
          simp [extraEnum] at hr
        | some m =>
          rw [hex] at hr
          simp only [extraEnum] at hr
          have hmu : mapUpd m q.1 q.2 = m :=
            mapUpd_mem_self m q.1 q.2 hr.1 hr.2
          have happ : applyP v q = v := by
            unfold applyP
            rw [hfd, hex]
            simp only [extraEnum, hmu, ← hex]
          rw [happ, foldl_applyP_extra ps v
            (fun p hp => h p (List.mem_cons_of_mem q hp)), hex]

/-- Executable key-uniqueness check. -/
def nodupKeysB : List String → Bool
  | [] => true
  | k :: rest => (rest.all fun k2 => !(k2 == k)) && nodupKeysB rest

theorem nodupKeysB_nodup : ∀ l : List String, nodupKeysB l = true → l.Nodup
  | [], _ => List.nodup_nil
  | k :: rest, h => by
    have h2 : (rest.all fun k2 => !(k2 == k)) = true ∧
        nodupKeysB rest = true := by
      simpa [nodupKeysB, Bool.and_eq_true] using h
    rw [List.nodup_cons]
    refine ⟨?_, nodupKeysB_nodup rest h2.2⟩
    intro hmem
    have := List.all_eq_true.mp h2.1 k hmem
    simp at this

/-- A declared-field slot the round trip restores exactly: a present
value has the declared storage kind, enumerates map keys canonically,
and is not an empty collection (the `len(val) > 0` guard of `makePairs`
silently drops those). -/
def fieldEntryWF : FieldDecl × Option FieldVal → Bool
  | (_, none) => true
  | (d, some val) =>
    (d.kind == val.kind) && FieldVal.canonicalF val && !val.isEmptyColl

/-- An extra map the round trip restores exactly: unique keys, none of
them shadowing a declared wire key, and canonical stored values. -/
def extraWF (fields : List (FieldDecl × Option FieldVal)) :
    Option (List (String × Jval)) → Bool
  | none => true
  | some m =>
    nodupKeysB (m.map Prod.fst) &&
      m.all fun p => p.2.canonical &&
        fields.all fun fo => !(fo.1.json == p.1)

/-- Well-formed populated object: unique declared wire keys, restorable
field slots, restorable extra map. -/
def Obj.roundTripWF (x : Obj) : Bool :=
  nodupKeysB (x.fields.map fun fo => fo.1.json) &&
    x.fields.all fieldEntryWF &&
    extraWF x.fields x.extra

theorem mem_declaredPairs (fs : List (FieldDecl × Option FieldVal))
    (fo : FieldDecl × Option FieldVal) (val : FieldVal)
    (hfo : fo ∈ fs) (hst : fo.2 = some val)
    (hg : (fo.1.kind.isSliceOrMap && val.isEmptyColl) = false) :
    (fo.1.json, val.toJval) ∈ declaredPairs fs := by
  unfold declaredPairs
  refine List.mem_filterMap.mpr ⟨fo, hfo, ?_⟩
  simp [hst, hg]

theorem declaredPairs_mem_inv (fs : List (FieldDecl × Option FieldVal))
    (p : String × Jval) (hp : p ∈ declaredPairs fs) :
    ∃ fo val, fo ∈ fs ∧ fo.2 = some val ∧ p = (fo.1.json, val.toJval) := by
  unfold declaredPairs at hp
  rcases List.mem_filterMap.mp hp with ⟨fo, hfo, heq⟩
  refine ⟨fo, ?_⟩
  cases hst : fo.2 with
  | none => simp [hst] at heq
  | some val =>
    simp only [hst] at heq
    by_cases hg : (fo.1.kind.isSliceOrMap && val.isEmptyColl) = true
    · rw [if_pos hg] at heq
      cases heq
    · rw [if_neg hg] at heq
      exact ⟨val, hfo, rfl, (Option.some.inj heq).symm⟩

theorem filterMap_keys_sublist {α β γ : Type _} (f : α → Option (γ × β))
    (keyOf : α → γ) (hf : ∀ a b, f a = some b → b.1 = keyOf a) :
    ∀ l : List α, ((l.filterMap f).map Prod.fst).Sublist (l.map keyOf)
  | [] => by simp
  | a :: l => by
    rw [List.filterMap_cons]
    cases hfa : f a with
    | none =>
      show ((l.filterMap f).map Prod.fst).Sublist (keyOf a :: l.map keyOf)
      exact (filterMap_keys_sublist f keyOf hf l).cons _
    | some b =>
      show (b.1 :: (l.filterMap f).map Prod.fst).Sublist
        (keyOf a :: l.map keyOf)
      rw [hf a b hfa]
      exact (filterMap_keys_sublist f keyOf hf l).cons₂ _

theorem declaredPairs_keys_sublist
    (fs : List (FieldDecl × Option FieldVal)) :
    ((declaredPairs fs).map Prod.fst).Sublist
      (fs.map fun fo => fo.1.json) := by
  unfold declaredPairs
  refine filterMap_keys_sublist _ _ ?_ fs
  intro fo b h
  cases hst : fo.2 with
  | none => simp [hst] at h
  | some val =>
    simp only [hst] at h
    by_cases hg : (fo.1.kind.isSliceOrMap && val.isEmptyColl) = true
    · rw [if_pos hg] at h
      cases h
    · rw [if_neg hg] at h
      rw [← Option.some.inj h]

theorem makePairs_perm (x : Obj) :
    x.makePairs.Perm (declaredPairs x.fields ++ extraEnum x.extra) := by
  unfold Obj.makePairs sortPairs
  exact List.perm_insertionSort pairLe _

/-- C1 (amended): for a populated object with unique wire keys, no
extra entry shadowing a declared key, canonical map enumeration, and no
present-but-empty slice/map field, `UnmarshalJSON` applied to the
`MarshalJSON` output returns successfully with exactly the original
object state, so `Keys()` and `Get` observe the same object.  (The
original claim fails for present empty collections: the `len(val) > 0`
guard of `makePairs` silently drops them, see the counterexample.) -/
theorem c1_round_trip (x : Obj) (h : x.roundTripWF = true) :
    x.unmarshal x.marshalToks = URes.ok x := by
  have hwf : nodupKeysB (x.fields.map fun fo => fo.1.json) = true ∧
      x.fields.all fieldEntryWF = true ∧
      extraWF x.fields x.extra = true := by
    simpa [Obj.roundTripWF, Bool.and_eq_true, and_assoc] using h
  have hjs : (x.fields.map fun fo => fo.1.json).Nodup :=
    nodupKeysB_nodup _ hwf.1
  have hfe : ∀ fo ∈ x.fields, ∀ val : FieldVal, fo.2 = some val →
      fo.1.kind = val.kind ∧ FieldVal.canonicalF val = true ∧
      val.isEmptyColl = false := by
    intro fo hfo val hst
    have hq := List.all_eq_true.mp hwf.2.1 fo hfo
    obtain ⟨d, st⟩ := fo
    have hst' : st = some val := hst
    subst hst'
    simpa [fieldEntryWF, Bool.and_eq_true, and_assoc, beq_iff_eq,
      Bool.not_eq_true'] using hq
  have hexE : ((extraEnum x.extra).map Prod.fst).Nodup ∧
      ∀ p ∈ extraEnum x.extra, Jval.canonical p.2 = true ∧
        (∀ fo ∈ x.fields, ¬ fo.1.json = p.1) ∧ x.extra.isSome = true := by
    cases hm : x.extra with
    | none => exact ⟨by simp [extraEnum], by simp [extraEnum]⟩
    | some m =>
      have hq := hwf.2.2
      rw [hm] at hq
      simp only [extraWF, Bool.and_eq_true] at hq
      refine ⟨by simpa [extraEnum] using nodupKeysB_nodup _ hq.1, ?_⟩
      intro p hp
      have h2 := List.all_eq_true.mp hq.2 p hp
      simp only [Bool.and_eq_true] at h2
      refine ⟨h2.1, ?_, by simp⟩
      intro fo hfo hje
      have h3 := List.all_eq_true.mp h2.2 fo hfo
      simp [hje] at h3
  have hdk : ((declaredPairs x.fields).map Prod.fst).Nodup :=
    hjs.sublist (declaredPairs_keys_sublist x.fields)
  have hkdisj : ∀ a ∈ (declaredPairs x.fields).map Prod.fst,
      a ∉ (extraEnum x.extra).map Prod.fst := by
    intro a ha hae
    rcases List.mem_map.mp ha with ⟨q, hq, rfl⟩
    rcases declaredPairs_mem_inv _ q hq with ⟨fo, val, hfo, hst, hqe⟩
    rcases List.mem_map.mp hae with ⟨p, hp, hpe⟩
    apply ((hexE.2 p hp).2.1) fo hfo
    rw [hqe] at hpe
    exact hpe.symm
  have hpk : (x.makePairs.map Prod.fst).Nodup := by
    have hperm : (x.makePairs.map Prod.fst).Perm
        (((declaredPairs x.fields).map Prod.fst) ++
          ((extraEnum x.extra).map Prod.fst)) := by
      have hm := (makePairs_perm x).map Prod.fst
      simpa [List.map_append] using hm
    exact hperm.nodup_iff.mpr
      (List.Nodup.append hdk hexE.1 (fun a ha hb => hkdisj a ha hb))
  have hjs0 : ((resetFields x.fields).map fun fo => fo.1.json) =
      x.fields.map fun fo => fo.1.json := by
    unfold resetFields
    rw [List.map_map]
    rfl
  have hpok : ∀ p ∈ x.makePairs,
      PairOk ⟨resetFields x.fields, x.extra⟩ p := by
    intro p hp
    rcases List.mem_append.mp ((makePairs_perm x).mem_iff.mp hp) with hd | he
    · rcases declaredPairs_mem_inv _ p hd with ⟨fo, val, hfo, hst, hpe⟩
      rcases hfe fo hfo val hst with ⟨hk, hc, _⟩
      have hp1 : p.1 = fo.1.json := by rw [hpe]
      have hfind : findDecl (resetFields x.fields) p.1 =
          some (fo.1, none) := by
        rw [findDecl_resetFields, hp1,
          findDecl_self x.fields fo hjs hfo]
        rfl
      simp only [PairOk, hfind]
      refine ⟨val, ?_, hk, hc⟩
      rw [hpe]
    · rcases hexE.2 p he with ⟨hcan, hfresh, hsome⟩
      have hn : findDecl x.fields p.1 = none := by
        unfold findDecl
        exact List.find?_eq_none.mpr (fun fo hfo => by
          simpa using hfresh fo hfo)
      have hfind : findDecl (resetFields x.fields) p.1 = none := by
        rw [findDecl_resetFields, hn]
        rfl
      simp only [PairOk, hfind]
      exact ⟨hcan, hsome⟩
  have hfields : (x.makePairs.foldl applyP
      ⟨resetFields x.fields, x.extra⟩).fields = x.fields := by
    rw [foldl_applyP_fields x.makePairs ⟨resetFields x.fields, x.extra⟩ hpk
      (by rw [show ((⟨resetFields x.fields, x.extra⟩ : Obj).fields) =
        resetFields x.fields from rfl, hjs0]; exact hjs)]
    show ((x.fields.map fun fo =>
      (fo.1, (none : Option FieldVal))).map (pairPatch x.makePairs)) =
      x.fields
    rw [List.map_map]
    have hpt : ∀ fo ∈ x.fields,
        (pairPatch x.makePairs ∘ fun fo =>
          (fo.1, (none : Option FieldVal))) fo = fo := by
      intro fo hfo
      simp only [Function.comp_apply]
      cases hst : fo.2 with
      | some val =>
        rcases hfe fo hfo val hst with ⟨hk, hc, hne⟩
        have hg : (fo.1.kind.isSliceOrMap && val.isEmptyColl) = false := by
          rw [hne]
          simp
        have hmem : (fo.1.json, val.toJval) ∈ x.makePairs :=
          (makePairs_perm x).mem_iff.mpr (List.mem_append.mpr
            (Or.inl (mem_declaredPairs x.fields fo val hfo hst hg)))
        have hfind : x.makePairs.find?
            (fun p => p.1 ==
              ((fo.1, (none : Option FieldVal))).1.json) =
            some (fo.1.json, val.toJval) :=
          find_key_nodup x.makePairs fo.1.json val.toJval hpk hmem
        unfold pairPatch
        rw [hfind]
        show (fo.1, decodedOf fo.1.kind val.toJval) = fo
        rw [decodedOf_toJval val fo.1.kind hk hc, ← hst]
      | none =>
        have hnone : ∀ p ∈ x.makePairs, ¬ p.1 = fo.1.json := by
          intro p hp hpe
          rcases List.mem_append.mp
            ((makePairs_perm x).mem_iff.mp hp) with hd | he
          · rcases declaredPairs_mem_inv _ p hd with
              ⟨fo', val', hfo', hst', hpe'⟩
            have hj : fo'.1.json = fo.1.json := by
              rw [← hpe, hpe']
            have hff : fo' = fo :=
              List.inj_on_of_nodup_map hjs hfo' hfo hj
            rw [hff, hst] at hst'
            cases hst'
          · exact ((hexE.2 p he).2.1) fo hfo hpe.symm
        rw [pairPatch_eval_none x.makePairs (fo.1, (none : Option FieldVal))
          (fun p hp hpe => hnone p hp hpe), ← hst]
    rw [List.map_congr_left hpt, List.map_id']
  have hextra : (x.makePairs.foldl applyP
      ⟨resetFields x.fields, x.extra⟩).extra = x.extra := by
    apply foldl_applyP_extra
    intro p hp
    rcases List.mem_append.mp ((makePairs_perm x).mem_iff.mp hp) with hd | he
    · left
      rcases declaredPairs_mem_inv _ p hd with ⟨fo, val, hfo, hst, hpe⟩
      have hp1 : p.1 = fo.1.json := by rw [hpe]
      have hfind : findDecl (resetFields x.fields) p.1 =
          some (fo.1, none) := by
        rw [findDecl_resetFields, hp1,
          findDecl_self x.fields fo hjs hfo]
        rfl
      rw [show ((⟨resetFields x.fields, x.extra⟩ : Obj).fields) =
        resetFields x.fields from rfl, hfind]
      rfl
    · right
      exact ⟨he, hexE.1⟩
  have hlen : x.makePairs.length + 1 ≤
      (pairsToks x.makePairs ++ [Tok.rbrace]).length + 1 := by
    have hp := pairsToks_length_ge x.makePairs
    simp only [List.length_append, List.length_cons, List.length_nil]
    omega
  have hloop := unmarshalLoop_pairsToks x.makePairs
      ((pairsToks x.makePairs ++ [Tok.rbrace]).length + 1)
      ⟨resetFields x.fields, x.extra⟩ [] hlen hpok
  show unmarshalLoop
      ((Tok.lbrace :: (pairsToks x.makePairs ++ [Tok.rbrace])).length + 1)
      ⟨resetFields x.fields, x.extra⟩
      (Tok.lbrace :: (pairsToks x.makePairs ++ [Tok.rbrace])) = URes.ok x
  show unmarshalLoop ((pairsToks x.makePairs ++ [Tok.rbrace]).length + 1)
      ⟨resetFields x.fields, x.extra⟩
      (pairsToks x.makePairs ++ [Tok.rbrace]) = URes.ok x
  rw [hloop]
  exact congrArg URes.ok (Obj.ext2 hfields hextra)

/-- C1 counterexample: an object whose slice field holds a present but
empty `[]string` marshals without that key (the `len(val) > 0` guard of
`makePairs`), so the round trip returns successfully but the re-read
object answers `Get("list")` with a no-such-key error where the
original object answered with the empty array — the two objects are
observably different. -/
theorem c1_counterexample :
    emptyListObj.get "list" = .ok (.jarr []) ∧
    (emptyListObj.unmarshal emptyListObj.marshalToks).state.get "list" =
      .error (.noSuchKey "list") := by
  constructor
  · rfl
  · rfl

/-- A non-required `map[string]int` field. -/
def mapDecl : FieldDecl :=
  { name := "Counts", json := "counts", kind := .knumMap, required := false,
    extension := false }

/-- A non-required `int` field. -/
def countDecl : FieldDecl :=
  { name := "Count", json := "count", kind := .knum, required := false,
    extension := false }

/-- A non-required `bool` field. -/
def flagDecl : FieldDecl :=
  { name := "Flag", json := "flag", kind := .kbool, required := false,
    extension := false }

/-- A populated object exercising every storage shape, one absent
field, and a non-empty extra map in non-sorted enumeration order. -/
def c1Obj : Obj :=
  { fields := [
      (thingNameDecl, some (.vstr "a")),
      (countDecl, some (.vnum 2)),
      (flagDecl, some (.vbool true)),
      (listDecl, some (.vstrList ["x", "y"])),
      (mapDecl, some (.vnumMap [("a", 1), ("b", 2)])),
      (fieldB, none)],
    extra := some [("zz", .jstr "e"),
      ("aa", .jobj [("a", .jnum 1), ("b", .jbool true)])] }

theorem c1_round_trip_witness :
    c1Obj.roundTripWF = true ∧
      c1Obj.unmarshal c1Obj.marshalToks = URes.ok c1Obj :=
  ⟨rfl, c1_round_trip c1Obj rfl⟩

end Sketch
